import Mathlib

/-!
# The UTF-8 validator `utf8_naive` and the type universe of `all_types.hpp`

* `Utf8`: the C function `utf8_naive` of `src/utf8/naive.c`, related to
  Table 3-7 of the Unicode standard (quoted in the header comment of the
  source) and to the UTF-8 encoding of Unicode scalar values.
* `Zig`: the data declared in `src/all_types.hpp` for types and their keys,
  with the interning operations the header only declares or implies; then
  the enums and structs of the header for integer folding, layout resolution,
  top-level declarations, the branch quota, result locations and branches,
  each with the operation that section 4 of the specification describes.

Definitions come first, theorems after them.
-/

namespace Utf8

/-- An `unsigned char`: a value in `0 .. 255`. -/
abbrev Byte := Fin 256

/-- The cast `(signed char)b` of an `unsigned char` on a two's complement
target: values above `127` wrap to `b - 256`. -/
def signed_char (b : Byte) : Int :=
  if b.val ≤ 127 then (b.val : Int) else (b.val : Int) - 256

/-- The read `data[i]` through the pointer `data`; `none` when `i` is outside
the buffer (the C program has no defined result there). -/
def rd (data : List Byte) (i : Nat) : Option Byte := data.get? i

/-- The two ways one pass through the body of the `while` loop ends: by
`return 0`, or by reaching `len -= bytes; data += bytes;` with a value of
`bytes`. -/
inductive Step where
  | ret0 : Step
  | adv (bytes : Nat) : Step
  deriving DecidableEq, Repr

/-- Lines 77-114 of naive.c: the `else if (len >= 3) { ... } else { return 0; }`
tail of the `if` chain in the loop body. -/
def utf8_naive_tail (data : List Byte) (len : Nat) (byte1 : Byte) : Option Step :=
  if len ≥ 3 then do
    let byte2 ← rd data 1
    let byte2_ok : Bool := decide (signed_char byte2 ≤ signed_char 0xBF)
    let data2 ← rd data 2
    let byte3_ok : Bool := decide (signed_char data2 ≤ signed_char 0xBF)
    if byte2_ok ∧ byte3_ok ∧
        ((byte1.val = 0xE0 ∧ byte2.val ≥ 0xA0) ∨
         (byte1.val ≥ 0xE1 ∧ byte1.val ≤ 0xEC) ∨
         (byte1.val = 0xED ∧ byte2.val ≤ 0x9F) ∨
         (byte1.val ≥ 0xEE ∧ byte1.val ≤ 0xEF)) then
      pure (Step.adv 3)
    else if len ≥ 4 then do
      let data3 ← rd data 3
      let byte4_ok : Bool := decide (signed_char data3 ≤ signed_char 0xBF)
      if byte2_ok ∧ byte3_ok ∧ byte4_ok ∧
          ((byte1.val = 0xF0 ∧ byte2.val ≥ 0x90) ∨
           (byte1.val ≥ 0xF1 ∧ byte1.val ≤ 0xF3) ∨
           (byte1.val = 0xF4 ∧ byte2.val ≤ 0x8F)) then
        pure (Step.adv 4)
      else
        pure Step.ret0
    else
      pure Step.ret0
  else
    pure Step.ret0

/-- Lines 67-114 of naive.c: the body of the `while` loop up to the update of
`len` and `data`.  The short-circuit `&&` of line 74-75 is written as nested
conditionals: `data[1]` is read only when `len >= 2` and `byte1` is in
`C2..DF`, and a failed test falls through to the `else if (len >= 3)` tail. -/
def utf8_naive_body (data : List Byte) (len : Nat) : Option Step := do
  let byte1 ← rd data 0
  if byte1.val ≤ 0x7F then
    pure (Step.adv 1)
  else if len ≥ 2 ∧ byte1.val ≥ 0xC2 ∧ byte1.val ≤ 0xDF then do
    let data1 ← rd data 1
    if signed_char data1 ≤ signed_char 0xBF then
      pure (Step.adv 2)
    else
      utf8_naive_tail data len byte1
  else
    utf8_naive_tail data len byte1

/-- The `while (len) { ... } return 1;` loop of `utf8_naive`, with a bound
`fuel` on the number of passes.  `some r` is the returned `int`; `none` means
that no value is returned: a read outside the buffer, or the bound was too
small. -/
def utf8_naive_loop : Nat → List Byte → Nat → Option Int
  | fuel, data, len =>
    if len = 0 then some 1
    else
      match fuel with
      | 0 => none
      | fuel + 1 =>
        match utf8_naive_body data len with
        | none => none
        | some Step.ret0 => some 0
        | some (Step.adv bytes) => utf8_naive_loop fuel (data.drop bytes) (len - bytes)

/-- The function `int utf8_naive(const unsigned char *data, int len)` for
`len ≥ 0`.  Every pass of the loop lowers `len` by at least one, so `len`
passes are enough (see `utf8_naive_loop_fuel`). -/
def utf8_naive (data : List Byte) (len : Nat) : Option Int :=
  utf8_naive_loop len data len

/-- A trailing byte `80..BF` of Table 3-7. -/
def cont (b : Byte) : Prop := 0x80 ≤ b.val ∧ b.val ≤ 0xBF

instance (b : Byte) : Decidable (cont b) := by unfold cont; infer_instance

/-- Table 3-7 "Well-Formed UTF-8 Byte Sequences" of the header comment of
naive.c (lines 35-61): `Table_3_7 c` holds when the byte sequence `c` matches
one of the nine rows. -/
def Table_3_7 : List Byte → Prop
  | [b1] => b1.val ≤ 0x7F
  | [b1, b2] => 0xC2 ≤ b1.val ∧ b1.val ≤ 0xDF ∧ cont b2
  | [b1, b2, b3] =>
      (b1.val = 0xE0 ∧ 0xA0 ≤ b2.val ∧ b2.val ≤ 0xBF ∧ cont b3) ∨
      (0xE1 ≤ b1.val ∧ b1.val ≤ 0xEC ∧ cont b2 ∧ cont b3) ∨
      (b1.val = 0xED ∧ 0x80 ≤ b2.val ∧ b2.val ≤ 0x9F ∧ cont b3) ∨
      (0xEE ≤ b1.val ∧ b1.val ≤ 0xEF ∧ cont b2 ∧ cont b3)
  | [b1, b2, b3, b4] =>
      (b1.val = 0xF0 ∧ 0x90 ≤ b2.val ∧ b2.val ≤ 0xBF ∧ cont b3 ∧ cont b4) ∨
      (0xF1 ≤ b1.val ∧ b1.val ≤ 0xF3 ∧ cont b2 ∧ cont b3 ∧ cont b4) ∨
      (b1.val = 0xF4 ∧ 0x80 ≤ b2.val ∧ b2.val ≤ 0x8F ∧ cont b3 ∧ cont b4)
  | _ => False

instance (c : List Byte) : Decidable (Table_3_7 c) := by
  unfold Table_3_7; split <;> infer_instance

/-- A byte string is well formed when it can be split into consecutive chunks
each of which matches one row of Table 3-7. -/
def WellFormed (s : List Byte) : Prop :=
  ∃ chunks : List (List Byte), (∀ c ∈ chunks, Table_3_7 c) ∧ chunks.flatten = s

/-- The length of a sequence of Table 3-7 as fixed by its first byte. -/
def seqLen (b : Byte) : Nat :=
  if b.val ≤ 0x7F then 1 else if b.val ≤ 0xDF then 2 else if b.val ≤ 0xEF then 3 else 4

/-- The byte with value `n mod 256`. -/
def byte (n : Nat) : Byte := ⟨n % 256, Nat.mod_lt _ (by decide)⟩

/-- A Unicode scalar value: a code point in `U+0000..U+D7FF` or
`U+E000..U+10FFFF`. -/
def isScalar (c : Nat) : Prop := c ≤ 0xD7FF ∨ (0xE000 ≤ c ∧ c ≤ 0x10FFFF)

instance (c : Nat) : Decidable (isScalar c) := by unfold isScalar; infer_instance

/-- The standard (shortest-form) UTF-8 encoding of a code point, as the Unicode
standard has it: one byte `0xxxxxxx` up to `U+007F`, two bytes `110xxxxx 10xxxxxx` up
to `U+07FF`, three bytes `1110xxxx 10xxxxxx 10xxxxxx` up to `U+FFFF`, and four
bytes `11110xxx 10xxxxxx 10xxxxxx 10xxxxxx` above. -/
def utf8_encode (c : Nat) : List Byte :=
  if c ≤ 0x7F then [byte c]
  else if c ≤ 0x7FF then [byte (0xC0 + c / 64), byte (0x80 + c % 64)]
  else if c ≤ 0xFFFF then
    [byte (0xE0 + c / 4096), byte (0x80 + c / 64 % 64), byte (0x80 + c % 64)]
  else
    [byte (0xF0 + c / 262144), byte (0x80 + c / 4096 % 64), byte (0x80 + c / 64 % 64),
      byte (0x80 + c % 64)]

/-- The concatenated encoding of a list of code points. -/
def utf8_encode_all (cps : List Nat) : List Byte := (cps.map utf8_encode).flatten

example : utf8_naive [0x41, 0xC3, 0xA9, 0xE2, 0x82, 0xAC, 0xF0, 0x9F, 0x98, 0x80] 10 = some 1 := by
  decide
example : utf8_naive [0x41, 0xC3, 0xA9, 0xE2, 0x82, 0xAC, 0xF0, 0x9F, 0x98, 0x80] 9 = some 0 := by
  decide
example : utf8_naive [0x41, 0xC3, 0xA9] 4 = none := by decide
example : utf8_naive [0xC0, 0x80] 2 = some 0 := by decide
example : Table_3_7 [0xE2, 0x82, 0xAC] := by decide
example : ¬ Table_3_7 [0xED, 0xA0, 0x80] := by decide
example : utf8_encode 0x20AC = [0xE2, 0x82, 0xAC] := by decide
example : utf8_encode 0x1F600 = [0xF0, 0x9F, 0x98, 0x80] := by decide

end Utf8

namespace Zig

/-- A `ZigType *`: a type instance is identified by its address. -/
abbrev ZigTypePtr := Nat

/-- An `AstNode *`: a declaration is identified by the address of its node. -/
abbrev AstNodePtr := Nat

/-- The enum `ZigTypeId` (all_types.hpp, lines 1255-1282). -/
inductive ZigTypeId where
  | ZigTypeIdInvalid | ZigTypeIdMetaType | ZigTypeIdVoid | ZigTypeIdBool
  | ZigTypeIdUnreachable | ZigTypeIdInt | ZigTypeIdFloat | ZigTypeIdPointer
  | ZigTypeIdArray | ZigTypeIdStruct | ZigTypeIdComptimeFloat | ZigTypeIdComptimeInt
  | ZigTypeIdUndefined | ZigTypeIdNull | ZigTypeIdOptional | ZigTypeIdErrorUnion
  | ZigTypeIdErrorSet | ZigTypeIdEnum | ZigTypeIdUnion | ZigTypeIdFn | ZigTypeIdBoundFn
  | ZigTypeIdArgTuple | ZigTypeIdOpaque | ZigTypeIdPromise | ZigTypeIdVector
  | ZigTypeIdEnumLiteral
  deriving DecidableEq, Repr

/-- The enum `PtrLen` (lines 1056-1060). -/
inductive PtrLen where
  | PtrLenUnknown | PtrLenSingle | PtrLenC
  deriving DecidableEq, Repr

/-- The enum `ResolveStatus` (lines 1100-1108), in the order of the source. -/
inductive ResolveStatus where
  | ResolveStatusUnstarted | ResolveStatusInvalid | ResolveStatusZeroBitsKnown
  | ResolveStatusAlignmentKnown | ResolveStatusSizeKnown | ResolveStatusLLVMFwdDecl
  | ResolveStatusLLVMFull
  deriving DecidableEq, Repr

/-- The enum `ContainerKind` (lines 834-838). -/
inductive ContainerKind where
  | ContainerKindStruct | ContainerKindEnum | ContainerKindUnion
  deriving DecidableEq, Repr

/-- The enum `ContainerLayout` (lines 840-844). -/
inductive ContainerLayout where
  | ContainerLayoutAuto | ContainerLayoutExtern | ContainerLayoutPacked
  deriving DecidableEq, Repr

/-- The struct `TypeId` (lines 1555-1586): the tag `id` together with the
member of the union `data` that belongs to it.  The `uint32_t` and `uint64_t`
fields are natural numbers. -/
inductive TypeId where
  | pointer (child_type : ZigTypePtr) (ptr_len : PtrLen) (alignment : Nat)
      (bit_offset_in_host : Nat) (host_int_bytes : Nat)
      (is_const : Bool) (is_volatile : Bool) (allow_zero : Bool)
  | array (child_type : ZigTypePtr) (size : Nat)
  | integer (is_signed : Bool) (bit_count : Nat)
  | error_union (err_set_type : ZigTypePtr) (payload_type : ZigTypePtr)
  | vector (elem_type : ZigTypePtr) (len : Nat)
  deriving DecidableEq, Repr

/-- The field `id` of a `TypeId`. -/
def TypeId.id : TypeId → ZigTypeId
  | .pointer .. => .ZigTypeIdPointer
  | .array .. => .ZigTypeIdArray
  | .integer .. => .ZigTypeIdInt
  | .error_union .. => .ZigTypeIdErrorUnion
  | .vector .. => .ZigTypeIdVector

/-- Modelled from the spec: `bool type_id_eql(TypeId a, TypeId b)` is only
declared in all_types.hpp (line 1589); its body is missing.  Section 4.1 calls
the key comparison "pure structural ... equality": the tags agree and so does
every field of the member of the union that the tag selects. -/
def type_id_eql (a b : TypeId) : Bool :=
  match a, b with
  | .pointer c1 l1 a1 o1 h1 k1 v1 z1, .pointer c2 l2 a2 o2 h2 k2 v2 z2 =>
      c1 == c2 && l1 == l2 && a1 == a2 && o1 == o2 && h1 == h2 && k1 == k2 && v1 == v2 &&
        z1 == z2
  | .array c1 s1, .array c2 s2 => c1 == c2 && s1 == s2
  | .integer s1 n1, .integer s2 n2 => s1 == s2 && n1 == n2
  | .error_union e1 p1, .error_union e2 p2 => e1 == e2 && p1 == p2
  | .vector e1 n1, .vector e2 n2 => e1 == e2 && n1 == n2
  | _, _ => false

/-- The fields of `AstNodeContainerDecl` (lines 846-853) that make up the text
of a `struct`, `enum` or `union` declaration. -/
structure AstNodeContainerDecl where
  kind : ContainerKind
  fields : List AstNodePtr
  decls : List AstNodePtr
  layout : ContainerLayout
  deriving DecidableEq, Repr

/-- The fields of `ZigTypeStruct` (lines 1130-1150) that identity and
resolution use. -/
structure ZigTypeStruct where
  decl_node : AstNodePtr
  layout : ContainerLayout
  resolve_status : ResolveStatus
  resolve_loop_flag : Bool
  reported_infinite_err : Bool
  deriving DecidableEq, Repr

/-- The fields of `ZigTypeEnum` (lines 1167-1189) that identity and resolution
use. -/
structure ZigTypeEnum where
  decl_node : AstNodePtr
  layout : ContainerLayout
  is_invalid : Bool
  complete : Bool
  zero_bits_known : Bool
  deriving DecidableEq, Repr

/-- The fields of `ZigTypeUnion` (lines 1194-1218) that identity and resolution
use. -/
structure ZigTypeUnion where
  decl_node : AstNodePtr
  layout : ContainerLayout
  resolve_status : ResolveStatus
  resolve_loop_flag : Bool
  reported_infinite_err : Bool
  deriving DecidableEq, Repr

/-- The union `data` of `ZigType` (lines 1303-1319): the three composite
members (`structure` is written `structure_`), and for the types of the type table the key they were made from. -/
inductive ZigTypeData where
  | keyed (key : TypeId)
  | structure_ (s : ZigTypeStruct)
  | enumeration (e : ZigTypeEnum)
  | unionation (u : ZigTypeUnion)
  deriving DecidableEq, Repr

/-- The struct `ZigType` (lines 1294-1340): its tag and its payload. -/
structure ZigType where
  id : ZigTypeId
  data : ZigTypeData
  deriving DecidableEq, Repr

/-- The struct `TldContainer` (lines 406-411): `source_node` is the field
`base.source_node` of the embedded `Tld`. -/
structure TldContainer where
  source_node : AstNodePtr
  type_entry : ZigTypePtr
  deriving DecidableEq, Repr

/-- The part of the struct `CodeGen` that holds types: the arena `types` of
allocated `ZigType` instances (the instance at address `p` is `types[p]`), the
hash map `type_table` (line 1752) as an association list, and the container
declarations that have been scanned. -/
structure CodeGen where
  types : List ZigType
  type_table : List (TypeId × ZigTypePtr)
  tlds : List TldContainer
  deriving DecidableEq, Repr

/-- The state of a compilation that has not made any type yet. -/
def CodeGen.init : CodeGen := ⟨[], [], []⟩

/-- Modelled from the spec: the lookup of the hash map `type_table`; the C++
template `HashMap` is missing from the sources, and section 4.1 has it find the
entry whose key is equal to `k` under `type_id_eql`. -/
def type_table_get : List (TypeId × ZigTypePtr) → TypeId → Option ZigTypePtr
  | [], _ => none
  | (k1, p) :: rest, k => if type_id_eql k1 k then some p else type_table_get rest k

/-- Modelled from the spec: `getOrCreate(structuralKey)` of section 4.1, whose
implementation is missing from the sources.  The key is looked up in
`type_table`; on a miss a new instance is allocated and entered under the
key. -/
def get_or_create (g : CodeGen) (k : TypeId) : ZigTypePtr × CodeGen :=
  match type_table_get g.type_table k with
  | some p => (p, g)
  | none =>
    (g.types.length,
      { g with
        types := g.types ++ [⟨k.id, ZigTypeData.keyed k⟩],
        type_table := (k, g.types.length) :: g.type_table })

/-- The `type_entry` of the container declaration with node `d`, if that
declaration has been scanned. -/
def tld_find : List TldContainer → AstNodePtr → Option ZigTypePtr
  | [], _ => none
  | t :: rest, d => if t.source_node = d then some t.type_entry else tld_find rest d

/-- The instance that is allocated for a container declaration before any of
its layout is resolved. -/
def new_container_type (d : AstNodePtr) (decl : AstNodeContainerDecl) : ZigType :=
  match decl.kind with
  | .ContainerKindStruct =>
    ⟨.ZigTypeIdStruct, .structure_ ⟨d, decl.layout, .ResolveStatusUnstarted, false, false⟩⟩
  | .ContainerKindEnum =>
    ⟨.ZigTypeIdEnum, .enumeration ⟨d, decl.layout, false, false, false⟩⟩
  | .ContainerKindUnion =>
    ⟨.ZigTypeIdUnion, .unionation ⟨d, decl.layout, .ResolveStatusUnstarted, false, false⟩⟩

/-- Modelled from the spec: `getOrCreate` for composite kinds (section 4.1),
whose implementation is missing from the sources: "identity-based, keyed by
declaration node, and ... a single-entry memo".  The memo is the field
`type_entry` of the declaration's `TldContainer`; on a miss an instance with
nothing resolved is allocated and the declaration is entered. -/
def get_container_type (g : CodeGen) (d : AstNodePtr) (decl : AstNodeContainerDecl) :
    ZigTypePtr × CodeGen :=
  match tld_find g.tlds d with
  | some p => (p, g)
  | none =>
    (g.types.length,
      { g with
        types := g.types ++ [new_container_type d decl],
        tlds := ⟨d, g.types.length⟩ :: g.tlds })

/-- The effect of layout resolution with outcome `st` on one instance: a
struct or union records `st` in `resolve_status`; an enum, which has flags
instead, records whether it is invalid, has its zero-bit status and is
complete; the types of the type table have nothing to resolve. -/
def set_resolved (st : ResolveStatus) (t : ZigType) : ZigType :=
  match t.data with
  | .keyed _ => t
  | .structure_ s => { t with data := .structure_ { s with resolve_status := st } }
  | .unionation u => { t with data := .unionation { u with resolve_status := st } }
  | .enumeration e =>
    let e1 : ZigTypeEnum :=
      { e with
        is_invalid := decide (st = .ResolveStatusInvalid)
        zero_bits_known :=
          decide (st ≠ .ResolveStatusUnstarted ∧ st ≠ .ResolveStatusInvalid)
        complete :=
          decide (st = .ResolveStatusSizeKnown ∨ st = .ResolveStatusLLVMFwdDecl ∨
            st = .ResolveStatusLLVMFull) }
    { t with data := .enumeration e1 }

/-- Modelled from the spec: `resolveLayout(type)` of section 4.1, whose
implementation is missing from the sources, as far as interning sees it:
the instance at address `t` is updated in place with the outcome `st` of
the resolution; no instance is allocated and no table is touched. -/
def resolve_layout (g : CodeGen) (t : ZigTypePtr) (st : ResolveStatus) : CodeGen :=
  match g.types[t]? with
  | none => g
  | some ty => { g with types := g.types.set t (set_resolved st ty) }

/-- The requests a compilation makes to the type universe. -/
inductive Op where
  | intern (k : TypeId)
  | container (d : AstNodePtr) (decl : AstNodeContainerDecl)
  | resolve (t : ZigTypePtr) (st : ResolveStatus)
  deriving DecidableEq, Repr

/-- The state after one request. -/
def step (g : CodeGen) : Op → CodeGen
  | .intern k => (get_or_create g k).2
  | .container d decl => (get_container_type g d decl).2
  | .resolve t st => resolve_layout g t st

/-- The state after a sequence of requests. -/
def run (g : CodeGen) (ops : List Op) : CodeGen := ops.foldl step g

/-- The declaration node an instance was made for, when it is a composite
type. -/
def decl_node_of (t : ZigType) : Option AstNodePtr :=
  match t.data with
  | .keyed _ => none
  | .structure_ s => some s.decl_node
  | .enumeration e => some e.decl_node
  | .unionation u => some u.decl_node

/-- The key an instance was made from, when it is a type of the type table. -/
def key_of (t : ZigType) : Option TypeId :=
  match t.data with
  | .keyed k => some k
  | _ => none

/-- What ties the tables of a compilation to its instances: an entry of
`type_table` points at an instance made from its key, every instance made from
a key is the entry of that key, and the `type_entry` of a declaration points at
an instance made for that declaration. -/
structure Inv (g : CodeGen) : Prop where
  table_sound : ∀ k p, type_table_get g.type_table k = some p →
    ∃ t, g.types[p]? = some t ∧ key_of t = some k
  table_complete : ∀ p t k, g.types[p]? = some t → key_of t = some k →
    type_table_get g.type_table k = some p
  tld_sound : ∀ d p, tld_find g.tlds d = some p →
    ∃ t, g.types[p]? = some t ∧ decl_node_of t = some d

/-! ### Constant folding of integer arithmetic -/

/-- The enum `IrBinOp` (all_types.hpp, lines 2506-2539). -/
inductive IrBinOp where
  | IrBinOpInvalid | IrBinOpBoolOr | IrBinOpBoolAnd | IrBinOpCmpEq | IrBinOpCmpNotEq
  | IrBinOpCmpLessThan | IrBinOpCmpGreaterThan | IrBinOpCmpLessOrEq | IrBinOpCmpGreaterOrEq
  | IrBinOpBinOr | IrBinOpBinXor | IrBinOpBinAnd | IrBinOpBitShiftLeftLossy
  | IrBinOpBitShiftLeftExact | IrBinOpBitShiftRightLossy | IrBinOpBitShiftRightExact
  | IrBinOpAdd | IrBinOpAddWrap | IrBinOpSub | IrBinOpSubWrap | IrBinOpMult | IrBinOpMultWrap
  | IrBinOpDivUnspecified | IrBinOpDivExact | IrBinOpDivTrunc | IrBinOpDivFloor
  | IrBinOpRemUnspecified | IrBinOpRemRem | IrBinOpRemMod | IrBinOpArrayCat | IrBinOpArrayMult
  | IrBinOpMergeErrorSets
  deriving DecidableEq, Repr

/-- The struct `ZigTypeInt` (lines 1074-1077). -/
structure ZigTypeInt where
  bit_count : Nat
  is_signed : Bool
  deriving DecidableEq, Repr

/-- Modelled from the spec: the "destination bit width" test of section 8,
whose implementation is missing from the sources.  The values of a
fixed-width integer type are `0 .. 2^n - 1` when unsigned,
`-2^(n-1) .. 2^(n-1) - 1` when signed, and only `0` for a width of zero. -/
def fits_in_bits (ty : ZigTypeInt) (x : Int) : Prop :=
  if ty.bit_count = 0 then x = 0
  else if ty.is_signed then
    -(2 : Int) ^ (ty.bit_count - 1) ≤ x ∧ x < (2 : Int) ^ (ty.bit_count - 1)
  else 0 ≤ x ∧ x < (2 : Int) ^ ty.bit_count

instance (ty : ZigTypeInt) (x : Int) : Decidable (fits_in_bits ty x) := by
  unfold fits_in_bits; infer_instance

/-- Modelled from the spec: the result of an "explicit wrapping operator"
(section 4.2), whose implementation is missing from the sources: the value of
the type that is congruent to `x` modulo `2^bit_count` (two's complement when
the type is signed). -/
def wrap_to_bits (ty : ZigTypeInt) (x : Int) : Int :=
  if ty.bit_count = 0 then 0
  else if ty.is_signed then
    (x + (2 : Int) ^ (ty.bit_count - 1)) % (2 : Int) ^ ty.bit_count -
      (2 : Int) ^ (ty.bit_count - 1)
  else x % (2 : Int) ^ ty.bit_count

/-- The outcome of folding an operation on static operands. -/
inductive FoldResult where
  | value (v : Int)
  | overflow_error
  | not_arithmetic
  deriving DecidableEq, Repr

/-- Modelled from the spec: `foldBinaryOp(op, lhs, rhs)` of section 4.2 on two
static integers, whose implementation is missing from the sources (only the
enum `IrBinOp` and `IrInstructionBinOp` are declared).  The result is computed
"with arbitrary-precision arithmetic"; for `+`, `-`, `*` "overflow in a
fixed-width target type is a compile error, not wraparound, unless the
operation is an explicit wrapping operator".  The other operators are outside
this model. -/
def fold_int_bin_op (ty : ZigTypeInt) (op : IrBinOp) (a b : Int) : FoldResult :=
  match op with
  | .IrBinOpAdd =>
    if fits_in_bits ty (a + b) then .value (a + b) else .overflow_error
  | .IrBinOpSub =>
    if fits_in_bits ty (a - b) then .value (a - b) else .overflow_error
  | .IrBinOpMult =>
    if fits_in_bits ty (a * b) then .value (a * b) else .overflow_error
  | .IrBinOpAddWrap => .value (wrap_to_bits ty (a + b))
  | .IrBinOpSubWrap => .value (wrap_to_bits ty (a - b))
  | .IrBinOpMultWrap => .value (wrap_to_bits ty (a * b))
  | _ => .not_arithmetic

/-- The exact result of `+`, `-`, `*` on unbounded integers; the wrapping
operators have the same exact result as their checked counterparts. -/
def exact_bin_op (op : IrBinOp) (a b : Int) : Int :=
  match op with
  | .IrBinOpAdd | .IrBinOpAddWrap => a + b
  | .IrBinOpSub | .IrBinOpSubWrap => a - b
  | .IrBinOpMult | .IrBinOpMultWrap => a * b
  | _ => 0

/-- The wrapping operator that corresponds to a checked operator. -/
def wrapping_variant (op : IrBinOp) : IrBinOp :=
  match op with
  | .IrBinOpAdd => .IrBinOpAddWrap
  | .IrBinOpSub => .IrBinOpSubWrap
  | .IrBinOpMult => .IrBinOpMultWrap
  | other => other

/-- The non-wrapping arithmetic operators `+`, `-`, `*`. -/
def is_checked_arith (op : IrBinOp) : Prop :=
  op = .IrBinOpAdd ∨ op = .IrBinOpSub ∨ op = .IrBinOpMult

instance (op : IrBinOp) : Decidable (is_checked_arith op) := by
  unfold is_checked_arith; infer_instance

example : fold_int_bin_op ⟨8, false⟩ .IrBinOpAdd 200 100 = .overflow_error := by decide
example : fold_int_bin_op ⟨8, false⟩ .IrBinOpAddWrap 200 100 = .value 44 := by decide
example : fold_int_bin_op ⟨8, true⟩ .IrBinOpAddWrap 100 100 = .value (-56) := by decide
example : fold_int_bin_op ⟨8, true⟩ .IrBinOpSub (-100) 100 = .overflow_error := by decide

/-! ### Layout resolution of structs -/

/-- The value of an enumerator of `ResolveStatus` (lines 1100-1108): the C
comparisons `>=` on statuses compare these numbers. -/
def ResolveStatus.toNat : ResolveStatus → Nat
  | .ResolveStatusUnstarted => 0
  | .ResolveStatusInvalid => 1
  | .ResolveStatusZeroBitsKnown => 2
  | .ResolveStatusAlignmentKnown => 3
  | .ResolveStatusSizeKnown => 4
  | .ResolveStatusLLVMFwdDecl => 5
  | .ResolveStatusLLVMFull => 6

/-- The state of layout resolution: the struct instances of the compilation
(the instance at address `p` is `structs[p]`; an address outside the list is a
type that is not a struct) and the structs for which a "contains itself"
diagnostic has been reported, in the order of the reports. -/
structure LayoutState where
  structs : List ZigTypeStruct
  errors : List ZigTypePtr
  deriving DecidableEq, Repr

/-- The status is `ResolveStatusSizeKnown` or beyond. -/
def size_known (s : ZigTypeStruct) : Prop :=
  ResolveStatus.ResolveStatusSizeKnown.toNat ≤ s.resolve_status.toNat

instance (s : ZigTypeStruct) : Decidable (size_known s) := by
  unfold size_known; infer_instance

/-- Modelled from the spec: the cycle report of `resolveLayout` (section 4.1),
missing from the sources.  Resolution finds the loop flag of `t` set: the type
is marked invalid, and the diagnostic is reported unless
`reported_infinite_err` says it was. -/
def loop_detected (st : LayoutState) (t : ZigTypePtr) (s : ZigTypeStruct) : LayoutState :=
  { structs := st.structs.set t
      { s with resolve_status := .ResolveStatusInvalid, reported_infinite_err := true }
    errors := if s.reported_infinite_err then st.errors else st.errors ++ [t] }

/-- Modelled from the spec: the entry of `resolveLayout` (section 4.1), missing
from the sources.  Resolution enters `t`: the loop flag is set while the
fields are resolved. -/
def enter_struct (st : LayoutState) (t : ZigTypePtr) (s : ZigTypeStruct) : LayoutState :=
  { st with structs := st.structs.set t { s with resolve_loop_flag := true } }

/-- Modelled from the spec: the exit of `resolveLayout` (section 4.1), missing
from the sources.  Resolution leaves `t`: the loop flag is cleared and the
status records the outcome `ok` of the fields. -/
def leave_struct (st : LayoutState) (t : ZigTypePtr) (ok : Bool) : LayoutState :=
  match st.structs[t]? with
  | none => st
  | some s =>
    let status : ResolveStatus :=
      if ok then .ResolveStatusSizeKnown else .ResolveStatusInvalid
    let s1 : ZigTypeStruct := { s with resolve_loop_flag := false, resolve_status := status }
    { st with structs := st.structs.set t s1 }

/-- Modelled from the spec: the field loop of `resolveLayout` (section 4.1),
missing from the sources.  The fields of a struct are resolved in order with
`resolve`; the first failure ends the resolution of the struct, so that a
cycle is reported once. -/
def resolve_fields (resolve : LayoutState → ZigTypePtr → Option (Bool × LayoutState)) :
    LayoutState → List ZigTypePtr → Option (Bool × LayoutState)
  | st, [] => some (true, st)
  | st, f :: fs =>
    match resolve st f with
    | none => none
    | some (false, st1) => some (false, st1)
    | some (true, st1) => resolve_fields resolve st1 fs

/-- Modelled from the spec: `resolveLayout(type)` of section 4.1 for struct
types, up to `ResolveStatusSizeKnown`; its implementation is missing from the
sources, which only declare the fields `resolve_status`, `resolve_loop_flag`
and `reported_infinite_err` of `ZigTypeStruct`.  "Invoked reentrantly, it must
detect ... cycles via the per-type loop-flag and report a single diagnostic
rather than overflow the call stack."  `field_types t` lists the types of the
fields that `t` holds by value (the `type_entry` of its `TypeStructField`s);
the result is `true` for success and `false` for failure; `fuel` bounds the
depth of the recursion and `none` means that it was too small. -/
def resolve_struct_type (field_types : ZigTypePtr → List ZigTypePtr) :
    Nat → LayoutState → ZigTypePtr → Option (Bool × LayoutState)
  | 0, _, _ => none
  | fuel + 1, st, t =>
    match st.structs[t]? with
    | none => some (true, st)
    | some s =>
      if s.resolve_status = .ResolveStatusInvalid then some (false, st)
      else if size_known s then some (true, st)
      else if s.resolve_loop_flag then some (false, loop_detected st t s)
      else
        match resolve_fields (resolve_struct_type field_types fuel) (enter_struct st t s)
            (field_types t) with
        | none => none
        | some (ok, st2) => some (ok, leave_struct st2 t ok)

/-- The struct `t` has, directly or through a chain of structs held by value, a
field of type `u`; `n` is the number of struct instances. -/
inductive Contains (field_types : ZigTypePtr → List ZigTypePtr) (n : Nat) :
    ZigTypePtr → ZigTypePtr → Prop where
  | direct {t u : ZigTypePtr} : t < n → u ∈ field_types t → Contains field_types n t u
  | trans {t v u : ZigTypePtr} : t < n → v ∈ field_types t → Contains field_types n v u →
      Contains field_types n t u

/-- A state in which no resolution has started and nothing was reported. -/
def LayoutState.fresh (st : LayoutState) : Prop :=
  st.errors = [] ∧
  ∀ s ∈ st.structs, s.resolve_status = .ResolveStatusUnstarted ∧
    s.resolve_loop_flag = false ∧ s.reported_infinite_err = false

/-- A struct instance for the declaration `d` on which nothing is resolved. -/
def unstarted_struct (d : AstNodePtr) : ZigTypeStruct :=
  ⟨d, .ContainerLayoutAuto, .ResolveStatusUnstarted, false, false⟩

example : resolve_struct_type (fun t => if t = 0 then [1] else if t = 1 then [0] else [])
    3 ⟨[unstarted_struct 10, unstarted_struct 11], []⟩ 0 =
    some (false, ⟨[⟨10, .ContainerLayoutAuto, .ResolveStatusInvalid, false, true⟩,
      ⟨11, .ContainerLayoutAuto, .ResolveStatusInvalid, false, false⟩], [0]⟩) := by decide
example : resolve_struct_type (fun t => if t = 0 then [1, 1] else [])
    3 ⟨[unstarted_struct 10, unstarted_struct 11], []⟩ 0 =
    some (true, ⟨[⟨10, .ContainerLayoutAuto, .ResolveStatusSizeKnown, false, false⟩,
      ⟨11, .ContainerLayoutAuto, .ResolveStatusSizeKnown, false, false⟩], []⟩) := by decide

/-- The loop flags of the struct instances, by address. -/
def flag_list (st : LayoutState) : List Bool := st.structs.map (fun s => s.resolve_loop_flag)

/-- What a call of the resolution leaves alone: the instances stay where they
are, with their loop flags, and a size that is known stays known. -/
structure Frame (st st1 : LayoutState) : Prop where
  none_stays : ∀ u : Nat, st.structs[u]? = none → st1.structs[u]? = none
  some_stays : ∀ (u : Nat) (s : ZigTypeStruct), st.structs[u]? = some s →
    ∃ s1 : ZigTypeStruct, st1.structs[u]? = some s1 ∧
      s1.resolve_loop_flag = s.resolve_loop_flag ∧ (size_known s → size_known s1)

/-- The states that resolution passes through: a struct whose size is known
holds only structs whose size is known and does not contain itself, and a
struct whose loop flag is set has no known size. -/
structure LInv (field_types : ZigTypePtr → List ZigTypePtr) (st : LayoutState) : Prop where
  closed : ∀ (u : Nat) (s : ZigTypeStruct), st.structs[u]? = some s → size_known s →
    ∀ v ∈ field_types u, ∀ sv : ZigTypeStruct, st.structs[v]? = some sv → size_known sv
  flag_open : ∀ (u : Nat) (s : ZigTypeStruct), st.structs[u]? = some s →
    s.resolve_loop_flag = true → ¬ size_known s
  acyclic : ∀ (u : Nat) (s : ZigTypeStruct), st.structs[u]? = some s → size_known s →
    ¬ Contains field_types st.structs.length u u

/-- Nothing has been reported and no struct is invalid. -/
def Clean (st : LayoutState) : Prop :=
  st.errors = [] ∧ ∀ (u : Nat) (s : ZigTypeStruct), st.structs[u]? = some s →
    s.resolve_status ≠ .ResolveStatusInvalid ∧ s.reported_infinite_err = false

/-- What the proofs need of a resolver `resolve`: each call that returns
respects `Frame`, keeps `LInv`, and either succeeds, with the size of `t`
known and nothing reported, or fails, with `t` invalid and, from a clean
state, exactly one report. -/
def GoodResolver (field_types : ZigTypePtr → List ZigTypePtr)
    (resolve : LayoutState → ZigTypePtr → Option (Bool × LayoutState)) : Prop :=
  ∀ st t r st1, resolve st t = some (r, st1) →
    Frame st st1 ∧
    (LInv field_types st →
      LInv field_types st1 ∧
      (r = true →
        (∀ s1 : ZigTypeStruct, st1.structs[t]? = some s1 → size_known s1) ∧
        (Clean st → Clean st1) ∧ st1.errors = st.errors) ∧
      (r = false →
        (∀ s1 : ZigTypeStruct, st1.structs[t]? = some s1 →
          s1.resolve_status = .ResolveStatusInvalid) ∧
        (Clean st → st1.errors.length = 1)))

/-! ### Result locations -/

/-- An `IrInstruction *`; `none` is the null pointer. -/
abbrev IrInstructionPtr := Option Nat

/-- The enum `ResultLocId` (all_types.hpp, lines 3785-3794). -/
inductive ResultLocId where
  | ResultLocIdInvalid | ResultLocIdNone | ResultLocIdVar | ResultLocIdReturn
  | ResultLocIdPeer | ResultLocIdPeerParent | ResultLocIdInstruction | ResultLocIdBitCast
  deriving DecidableEq, Repr

/-- The struct `ResultLoc` (lines 3798-3806). -/
structure ResultLoc where
  id : ResultLocId
  written : Bool
  allow_write_through_const : Bool
  resolved_loc : IrInstructionPtr
  source_instruction : IrInstructionPtr
  gen_instruction : IrInstructionPtr
  implicit_elem_type : Option ZigTypePtr
  deriving DecidableEq, Repr

/-- The outcome of a write to a result location. -/
inductive WriteOutcome where
  | stored
  | error_already_written
  deriving DecidableEq, Repr

/-- Modelled from the spec: the write to a result location (sections 3 and
4.5), whose implementation is missing from the sources (only the field
`written` of `ResultLoc` is declared): "a result location is written at most
once per control-flow path before being marked `written`; writing a second
time is a checker error".  A write to a location whose flag is clear stores
the value `value` and sets the flag; a write to a location whose flag is set
is refused with a diagnostic and leaves the location as it is. -/
def result_loc_write (loc : ResultLoc) (value : Nat) : WriteOutcome × ResultLoc :=
  if loc.written then (.error_already_written, loc)
  else (.stored, { loc with written := true, gen_instruction := some value })

/-- Modelled from the spec: the reset of a result location, `ir_reset_result`
of the comment above `struct ResultLoc` (line 3796; the function itself is
missing from the sources): "a reset operation clears the written flag for a
fresh path".  The fields filled in by a resolution and a write are cleared
with it. -/
def ir_reset_result (loc : ResultLoc) : ResultLoc :=
  { loc with
    written := false
    resolved_loc := none
    gen_instruction := none
    implicit_elem_type := none }

example : (result_loc_write ⟨.ResultLocIdVar, false, false, none, some 1, none, none⟩ 7).1 =
    .stored := by decide
example : (result_loc_write (result_loc_write
    ⟨.ResultLocIdVar, false, false, none, some 1, none, none⟩ 7).2 8).1 =
    .error_already_written := by decide

/-! ### Top-level declarations -/

/-- The enum `TldId` (all_types.hpp, lines 364-370). -/
inductive TldId where
  | TldIdVar | TldIdFn | TldIdContainer | TldIdCompTime | TldIdUsingNamespace
  deriving DecidableEq, Repr

/-- The enum `TldResolution` (lines 372-377). -/
inductive TldResolution where
  | TldResolutionUnresolved | TldResolutionResolving | TldResolutionInvalid
  | TldResolutionOk
  deriving DecidableEq, Repr

/-- The value of an enumerator of `TldResolution`. -/
def TldResolution.toNat : TldResolution → Nat
  | .TldResolutionUnresolved => 0
  | .TldResolutionResolving => 1
  | .TldResolutionInvalid => 2
  | .TldResolutionOk => 3

/-- The enumerator of `TldResolution` with a given value. -/
def TldResolution.of_value : Nat → Option TldResolution
  | 0 => some .TldResolutionUnresolved
  | 1 => some .TldResolutionResolving
  | 2 => some .TldResolutionInvalid
  | 3 => some .TldResolutionOk
  | _ => none

/-- The fields of the struct `Tld` (lines 379-388) that resolution uses. -/
structure Tld where
  id : TldId
  source_node : AstNodePtr
  resolution : TldResolution
  deriving DecidableEq, Repr

/-- The state of declaration resolution: the declarations (the declaration at
address `p` is `tlds[p]`) and the "dependency loop" diagnostics reported so
far, each with the declaration and the source node it is bound to. -/
structure DeclState where
  tlds : List Tld
  errors : List (Nat × AstNodePtr)
  deriving DecidableEq, Repr

/-- Modelled from the spec: a transition of the state machine of section 4.3,
missing from the sources.  The declaration at `t` gets the resolution state
`r`. -/
def set_resolution (st : DeclState) (t : Nat) (r : TldResolution) : DeclState :=
  match st.tlds[t]? with
  | none => st
  | some d => { st with tlds := st.tlds.set t { d with resolution := r } }

/-- Modelled from the spec: the evaluation of a declaration (section 4.3),
missing from the sources.  The declarations that it demands are resolved in
order with `resolve`; the first failure ends the evaluation. -/
def resolve_deps (resolve : DeclState → Nat → Option (Bool × DeclState)) :
    DeclState → List Nat → Option (Bool × DeclState)
  | st, [] => some (true, st)
  | st, d :: ds =>
    match resolve st d with
    | none => none
    | some (false, st1) => some (false, st1)
    | some (true, st1) => resolve_deps resolve st1 ds

/-- Modelled from the spec: the end of the evaluation of a declaration
(section 4.3), missing from the sources.  A declaration that is still
`resolving` becomes `ok` or `invalid`; "`resolving → ok`/`invalid` is a one-way
transition", so any other state is left as it is. -/
def finish_resolution (ok : Bool) : TldResolution → TldResolution
  | .TldResolutionResolving => if ok then .TldResolutionOk else .TldResolutionInvalid
  | other => other

/-- Modelled from the spec: `resolve(tld)` of section 4.3, whose
implementation is missing from the sources (only `TldResolution` and `Tld`
are declared).  "State machine: `unresolved → resolving → {ok, invalid}`";
"entering with state `resolving` is itself the cycle-detection signal and
must immediately fail with a 'dependency loop' diagnostic bound to the
original request's source location".  `deps t` lists the declarations that
the evaluation of `t` demands, `eval_ok t` tells whether the evaluation of `t`
itself succeeds once they are resolved, `src` is the source node of the
request; the result is `true` for success; `fuel` bounds the depth of the
recursion and `none` means that it was too small. -/
def resolve_tld (deps : Nat → List Nat) (eval_ok : Nat → Bool) (src : AstNodePtr) :
    Nat → DeclState → Nat → Option (Bool × DeclState)
  | 0, _, _ => none
  | fuel + 1, st, t =>
    match st.tlds[t]? with
    | none => some (false, st)
    | some d =>
      match d.resolution with
      | .TldResolutionOk => some (true, st)
      | .TldResolutionInvalid => some (false, st)
      | .TldResolutionResolving =>
        some (false,
          { set_resolution st t .TldResolutionInvalid with errors := st.errors ++ [(t, src)] })
      | .TldResolutionUnresolved =>
        match resolve_deps (resolve_tld deps eval_ok src fuel)
            (set_resolution st t .TldResolutionResolving) (deps t) with
        | none => none
        | some (ok, st2) =>
          match st2.tlds[t]? with
          | none => some (false, st2)
          | some d2 =>
            let r := finish_resolution (ok && eval_ok t) d2.resolution
            some (decide (r = .TldResolutionOk), set_resolution st2 t r)

/-- The declaration is settled: its state is `ok` or `invalid`. -/
def Tld.settled (d : Tld) : Prop :=
  d.resolution = .TldResolutionOk ∨ d.resolution = .TldResolutionInvalid

instance (d : Tld) : Decidable d.settled := by unfold Tld.settled; infer_instance

example : resolve_tld (fun t => if t = 0 then [1] else [0]) (fun _ => true) 5 3
    ⟨[⟨.TldIdVar, 10, .TldResolutionUnresolved⟩, ⟨.TldIdVar, 11, .TldResolutionUnresolved⟩], []⟩ 0 =
    some (false, ⟨[⟨.TldIdVar, 10, .TldResolutionInvalid⟩,
      ⟨.TldIdVar, 11, .TldResolutionInvalid⟩], [(0, 5)]⟩) := by decide
example : resolve_tld (fun t => if t = 0 then [1] else []) (fun _ => true) 5 3
    ⟨[⟨.TldIdVar, 10, .TldResolutionUnresolved⟩, ⟨.TldIdVar, 11, .TldResolutionUnresolved⟩], []⟩ 0 =
    some (true, ⟨[⟨.TldIdVar, 10, .TldResolutionOk⟩,
      ⟨.TldIdVar, 11, .TldResolutionOk⟩], []⟩) := by decide

/-- For each declaration, whether its resolution has started. -/
def started_list (st : DeclState) : List Bool :=
  st.tlds.map (fun d => decide (d.resolution ≠ .TldResolutionUnresolved))

/-- What a call of the resolver leaves alone: the declarations stay where
they are, a settled declaration keeps its state, and a declaration whose
resolution has started does not go back to `unresolved`. -/
structure DeclFrame (st st1 : DeclState) : Prop where
  none_stays : ∀ u : Nat, st.tlds[u]? = none → st1.tlds[u]? = none
  some_stays : ∀ (u : Nat) (d : Tld), st.tlds[u]? = some d →
    ∃ d1 : Tld, st1.tlds[u]? = some d1 ∧
      (d.settled → d1.resolution = d.resolution) ∧
      (d.resolution ≠ .TldResolutionUnresolved → d1.resolution ≠ .TldResolutionUnresolved)

/-- Every call of `resolve` that returns respects `DeclFrame`. -/
def FramedResolver (resolve : DeclState → Nat → Option (Bool × DeclState)) : Prop :=
  ∀ st t r st1, resolve st t = some (r, st1) → DeclFrame st st1

/-- The enumerator of `TldId` with a given value. -/
def TldId.of_value : Nat → Option TldId
  | 0 => some .TldIdVar
  | 1 => some .TldIdFn
  | 2 => some .TldIdContainer
  | 3 => some .TldIdCompTime
  | 4 => some .TldIdUsingNamespace
  | _ => none

/-- A declaration whose memory is all zero, as a newly allocated one is: each
field is the enumerator or the pointer with value `0`. -/
def zero_initialised_tld : Tld :=
  { id := (TldId.of_value 0).getD .TldIdVar
    source_node := 0
    resolution := (TldResolution.of_value 0).getD .TldResolutionOk }

/-! ### The branch quota -/

/-- The two counters of the struct `IrExecutable` (all_types.hpp, lines
56-87): the values behind the pointers `backward_branch_count` and
`backward_branch_quota`. -/
structure IrExecutable where
  backward_branch_count : Nat
  backward_branch_quota : Nat
  deriving DecidableEq, Repr

/-- Modelled from the spec: the check "at loop back-edges" of section 5, whose
implementation is missing from the sources (only the two counters are
declared): the backward branch is counted, and "exceeding [the quota] aborts
evaluation with a resource-exhaustion diagnostic"; `none` is that abort. -/
def ir_emit_backward_branch (exec : IrExecutable) : Option IrExecutable :=
  if exec.backward_branch_count + 1 > exec.backward_branch_quota then none
  else some { exec with backward_branch_count := exec.backward_branch_count + 1 }

/-- The outcome of the compile-time evaluation of a loop: it ran to its end
after `iterations` passes of the body, or it was aborted after `iterations`
passes with the diagnostic that names the quota. -/
inductive LoopOutcome where
  | finished (iterations : Nat)
  | quota_exceeded (iterations : Nat) (quota : Nat)
  | out_of_fuel
  deriving DecidableEq, Repr

/-- Modelled from the spec: the compile-time evaluation of a loop (section 5).
`cond i` is the value of the loop condition before pass `i` of the body, a
function of `i` because the evaluation is deterministic.  Each pass runs the
body and then takes the backward branch to the condition, which is checked
against the quota.  `fuel` bounds the number of passes. -/
def eval_loop_from (cond : Nat → Bool) : Nat → Nat → IrExecutable → LoopOutcome
  | 0, _, _ => .out_of_fuel
  | fuel + 1, i, exec =>
    if cond i then
      match ir_emit_backward_branch exec with
      | none => .quota_exceeded (i + 1) exec.backward_branch_quota
      | some exec1 => eval_loop_from cond fuel (i + 1) exec1
    else .finished i

/-- Modelled from the spec: the evaluation of a loop (section 5), missing from
the sources, with quota `quota` and the counter at zero.  The
quota bounds the number of passes, so `quota + 2` of them are enough (see
`eval_loop_from_spec`). -/
def eval_loop (quota : Nat) (cond : Nat → Bool) : LoopOutcome :=
  eval_loop_from cond (quota + 2) 0 ⟨0, quota⟩

/-- The loop takes more than `q` backward branches when nothing stops it: its
condition holds before each of the passes `0 .. q`. -/
def takes_more_than (cond : Nat → Bool) (q : Nat) : Prop := ∀ i, i ≤ q → cond i = true

example : eval_loop 3 (fun _ => true) = .quota_exceeded 4 3 := by decide
example : eval_loop 4 (fun _ => true) = .quota_exceeded 5 4 := by decide
example : eval_loop 3 (fun i => decide (i < 3)) = .finished 3 := by decide
example : eval_loop 3 (fun i => decide (i < 4)) = .quota_exceeded 4 3 := by decide
example : eval_loop 0 (fun _ => false) = .finished 0 := by decide

/-! ### Peer result locations -/

/-- The struct `ResultLocPeer` (all_types.hpp, lines 3838-3844): its `base`;
the field `parent` is the one parent of the model below. -/
structure ResultLocPeer where
  base : ResultLoc
  deriving DecidableEq, Repr

/-- The struct `ResultLocPeerParent` (lines 3827-3837): its `base`, its peers
and the type they resolve to. -/
structure ResultLocPeerParent where
  base : ResultLoc
  peers : List ResultLocPeer
  resolved_type : Option ZigTypePtr
  deriving DecidableEq, Repr

/-- A value-producing `if` or `switch` under analysis: its peer parent, and
the number of storage slots materialised so far (slot `k` is the `k`-th one). -/
structure PeerState where
  parent : ResultLocPeerParent
  slots : Nat
  deriving DecidableEq, Repr

/-- The outcome of a peer reporting its type. -/
inductive PeerOutcome where
  | deferred
  | resolved
  | error_type_mismatch
  | error_no_such_peer
  deriving DecidableEq, Repr

/-- Modelled from the spec: one step of the "deterministic left-to-right
widening rule" that section 9 asks for, the rule of the original being
missing from the sources.  The type so far is widened to the next type when it
converts to it implicitly, and is kept when the next type converts to it;
`conv a b` says that `a` converts implicitly to `b`. -/
def widen_peer_type (conv : ZigTypePtr → ZigTypePtr → Bool) (cur next : ZigTypePtr) :
    Option ZigTypePtr :=
  if cur = next then some cur
  else if conv cur next then some next
  else if conv next cur then some cur
  else none

/-- Modelled from the spec: the "single common type" of section 4.5, whose
implementation is missing from the sources.  Section 9 leaves the rule open
and asks for "a deterministic left-to-right widening rule"; this is it.
`none` is the type mismatch of "incompatible non-unifiable types". -/
def resolve_peer_types (conv : ZigTypePtr → ZigTypePtr → Bool) :
    List ZigTypePtr → Option ZigTypePtr
  | [] => none
  | t :: ts => ts.foldlM (widen_peer_type conv) t

/-- The types the peers have reported, in the order of the peers; `none` while
a peer has not reported. -/
def peer_candidates : List ResultLocPeer → Option (List ZigTypePtr)
  | [] => some []
  | p :: ps =>
    match p.base.implicit_elem_type, peer_candidates ps with
    | some t, some ts => some (t :: ts)
    | _, _ => none

/-- A peer records the type it reports. -/
def set_candidate (ty : ZigTypePtr) (p : ResultLocPeer) : ResultLocPeer :=
  { p with base := { p.base with implicit_elem_type := some ty } }

/-- A peer is pointed at a storage slot. -/
def set_resolved_loc (slot : Nat) (p : ResultLocPeer) : ResultLocPeer :=
  { p with base := { p.base with resolved_loc := some slot } }

/-- Modelled from the spec: `resolve(loc, valueType)` of section 4.5 for a
peer, whose implementation is missing from the sources (only the structs
`ResultLocPeerParent` and `ResultLocPeer` are declared).  Peer `i` reports the
type `ty`; "resolution is deferred until all peers report their candidate
type, at which point a single common type is computed ... and exactly one
storage slot is materialized; each peer then writes through that single slot
rather than allocating its own temporary". -/
def resolve_peer (conv : ZigTypePtr → ZigTypePtr → Bool) (st : PeerState) (i : Nat)
    (ty : ZigTypePtr) : PeerOutcome × PeerState :=
  match st.parent.peers[i]? with
  | none => (.error_no_such_peer, st)
  | some p =>
    let peers1 := st.parent.peers.set i (set_candidate ty p)
    let st1 : PeerState := { st with parent := { st.parent with peers := peers1 } }
    match peer_candidates peers1 with
    | none => (.deferred, st1)
    | some tys =>
      match resolve_peer_types conv tys with
      | none => (.error_type_mismatch, st1)
      | some common =>
        let slot := st.slots
        (.resolved,
          { parent :=
              { base := { st.parent.base with resolved_loc := some slot }
                peers := peers1.map (set_resolved_loc slot)
                resolved_type := some common }
            slots := st.slots + 1 })

/-- A result location on which nothing has happened. -/
def new_result_loc (id : ResultLocId) : ResultLoc :=
  ⟨id, false, false, none, none, none, none⟩

/-- The peer parent of an `if` used as a value, with its two peers (the
`then` branch first), before either branch has reported its type; `slots`
storage slots exist already. -/
def new_if_peers (slots : Nat) : PeerState :=
  { parent :=
      { base := new_result_loc .ResultLocIdPeerParent
        peers := [⟨new_result_loc .ResultLocIdPeer⟩, ⟨new_result_loc .ResultLocIdPeer⟩]
        resolved_type := none }
    slots := slots }

example : (resolve_peer (fun a b => decide (a ≤ b)) (new_if_peers 3) 0 8).1 = .deferred := by
  decide
example : (resolve_peer (fun a b => decide (a ≤ b))
    (resolve_peer (fun a b => decide (a ≤ b)) (new_if_peers 3) 0 8).2 1 16).2.parent.resolved_type
    = some 16 := by decide

/-- The state of the `if` once both branches have reported the types `a` and
`b` and the peers are resolved to the type `common` in the slot `slot`. -/
def unified_if_peers (slot : Nat) (a b common : ZigTypePtr) : PeerState :=
  { parent :=
      { base := { new_result_loc .ResultLocIdPeerParent with resolved_loc := some slot }
        peers :=
          [⟨{ new_result_loc .ResultLocIdPeer with
                resolved_loc := some slot, implicit_elem_type := some a }⟩,
           ⟨{ new_result_loc .ResultLocIdPeer with
                resolved_loc := some slot, implicit_elem_type := some b }⟩]
        resolved_type := some common }
    slots := slot + 1 }

/-! ### Analysis of the instruction graph -/

/-- The instructions of the source graph, as far as control flow goes.
`cond_br` is `IrInstructionCondBr` (all_types.hpp, lines 2425-2433) with its
blocks by index and its `condition` as constant folding leaves it: `some c`
when it folds to the compile-time-known boolean `c`, `none` when it is only
known at run time.  `br` is `IrInstructionBr` (lines 2435-2440),
`compile_err` is `IrInstructionCompileErr` (lines 2897-2901) with its message,
`ret` is a return, and `other` is any instruction that does not transfer
control. -/
inductive IrInstSrc where
  | other (id : Nat)
  | compile_err (msg : Nat)
  | cond_br (condition : Option Bool) (then_block else_block : Nat)
  | br (dest_block : Nat)
  | ret
  deriving DecidableEq, Repr

/-- The instructions of the generated graph. -/
inductive IrInstGen where
  | other (id : Nat)
  | cond_br (then_block else_block : Nat)
  | br (dest_block : Nat)
  | ret
  deriving DecidableEq, Repr

/-- What the analysis of one block yields: its generated instructions, the
compile errors it reports, and the blocks it makes reachable. -/
structure BlockResult where
  gen : List IrInstGen
  errors : List Nat
  succs : List Nat
  deriving DecidableEq, Repr

/-- Modelled from the spec: the analysis of the instructions of one block
(section 4.4), whose implementation is missing from the sources.  The
instructions are walked in order up to the first control transfer; "branches
whose condition folds to a compile-time-known boolean are resolved to
unconditional branches at analysis time", and only the selected block is made
reachable; `@compileError` reports its message and ends the block. -/
def analyze_insts : List IrInstSrc → BlockResult
  | [] => ⟨[], [], []⟩
  | .other id :: rest =>
    let r := analyze_insts rest
    ⟨.other id :: r.gen, r.errors, r.succs⟩
  | .compile_err msg :: _ => ⟨[], [msg], []⟩
  | .cond_br (some true) t _ :: _ => ⟨[.br t], [], [t]⟩
  | .cond_br (some false) _ e :: _ => ⟨[.br e], [], [e]⟩
  | .cond_br none t e :: _ => ⟨[.cond_br t e], [], [t, e]⟩
  | .br d :: _ => ⟨[.br d], [], [d]⟩
  | .ret :: _ => ⟨[.ret], [], []⟩

/-- The state of the analysis of a function: for each block of the source
graph whether it has been analysed, the generated graph (each generated block
with the index of its source block), and the compile errors reported. -/
structure AnalysisState where
  visited : List Bool
  gen_blocks : List (Nat × List IrInstGen)
  errors : List Nat
  deriving DecidableEq, Repr

/-- Modelled from the spec: `analyze(sourceGraph)` of section 4.4, whose
implementation is missing from the sources: the blocks that were made
reachable are analysed one after the other, each at most once; `worklist`
holds the blocks made reachable and not yet looked at, `fuel` bounds the
number of steps and `none` means that it was too small. -/
def analyze_blocks (prog : List (List IrInstSrc)) :
    Nat → List Nat → AnalysisState → Option AnalysisState
  | _, [], st => some st
  | 0, _ :: _, _ => none
  | fuel + 1, b :: rest, st =>
    match st.visited[b]?, prog[b]? with
    | some false, some insts =>
      let r := analyze_insts insts
      analyze_blocks prog fuel (r.succs ++ rest)
        { visited := st.visited.set b true
          gen_blocks := st.gen_blocks ++ [(b, r.gen)]
          errors := st.errors ++ r.errors }
    | _, _ => analyze_blocks prog fuel rest st

/-- Modelled from the spec: the entry of `analyze(sourceGraph)` (section 4.4),
missing from the sources: the analysis starts at block `0`.  A block is
analysed at most once and makes at most two blocks reachable, so
`3 * |blocks| + 2` steps are enough (see `analyze_blocks_total`). -/
def ir_analyze (prog : List (List IrInstSrc)) : Option AnalysisState :=
  analyze_blocks prog (3 * prog.length + 2) [0] ⟨List.replicate prog.length false, [], []⟩

/-- The first instruction of a block that is not `other`: the one that ends
the walk through the block. -/
def first_control : List IrInstSrc → Option IrInstSrc
  | [] => none
  | .other _ :: rest => first_control rest
  | i :: _ => some i

/-- The blocks that control can pass to from an instruction, a folded
condition selecting one side. -/
def selected_targets : IrInstSrc → List Nat
  | .cond_br (some true) t _ => [t]
  | .cond_br (some false) _ e => [e]
  | .cond_br none t e => [t, e]
  | .br d => [d]
  | _ => []

/-- The blocks that can be reached from the entry block through selected
sides only. -/
inductive Live (prog : List (List IrInstSrc)) : Nat → Prop where
  | entry : Live prog 0
  | step {b c : Nat} {insts : List IrInstSrc} {i : IrInstSrc} :
      Live prog b → prog[b]? = some insts → first_control insts = some i →
      c ∈ selected_targets i → Live prog c

/-- The function `if (false) { @compileError("x") }`: block `0` branches on
the folded condition `false` to the body, block `1`, or past it to block
`2`. -/
def if_false_compile_error : List (List IrInstSrc) :=
  [[.cond_br (some false) 1 2], [.compile_err 0, .br 2], [.ret]]

/-- What the states of the analysis have in common: the blocks waiting and
the generated blocks are live, a generated block is what `analyze_insts` makes
of its source block, and every error comes from a live block. -/
structure AInv (prog : List (List IrInstSrc)) (wl : List Nat) (st : AnalysisState) : Prop where
  wl_live : ∀ b ∈ wl, Live prog b
  gen_live : ∀ p ∈ st.gen_blocks, Live prog p.1 ∧
    ∃ insts, prog[p.1]? = some insts ∧ p.2 = (analyze_insts insts).gen
  err_live : ∀ m ∈ st.errors, ∃ b insts, Live prog b ∧ prog[b]? = some insts ∧
    first_control insts = some (IrInstSrc.compile_err m)

example : ir_analyze if_false_compile_error =
    some ⟨[true, false, true], [(0, [.br 2]), (2, [.ret])], []⟩ := by decide
example : ir_analyze [[.cond_br (some true) 1 2], [.compile_err 7, .br 2], [.ret]] =
    some ⟨[true, true, false], [(0, [.br 1]), (1, [])], [7]⟩ := by decide
example : ir_analyze [[.other 1, .cond_br none 1 2], [.br 0], [.ret]] =
    some ⟨[true, true, true], [(0, [.other 1, .cond_br 1 2]), (1, [.br 0]), (2, [.ret])], []⟩ := by
  decide

/-! ### The resolution ladder -/

/-- What can be known about the layout of a type, from the names of the
statuses and the comments "Known after ResolveStatus..." on the fields of
`ZigType` and `ZigTypeStruct`: whether it has zero bits, its alignment, its
size, its forward LLVM declaration and its full LLVM type. -/
inductive LayoutFact where
  | zero_bits | alignment | size | llvm_fwd_decl | llvm_full
  deriving DecidableEq, Repr

/-- The facts that are known at a status.  Nothing is known at
`ResolveStatusUnstarted` and at `ResolveStatusInvalid`. -/
def ResolveStatus.knows : ResolveStatus → LayoutFact → Bool
  | .ResolveStatusUnstarted, _ => false
  | .ResolveStatusInvalid, _ => false
  | .ResolveStatusZeroBitsKnown, f => decide (f = .zero_bits)
  | .ResolveStatusAlignmentKnown, f => decide (f = .zero_bits ∨ f = .alignment)
  | .ResolveStatusSizeKnown, f => decide (f = .zero_bits ∨ f = .alignment ∨ f = .size)
  | .ResolveStatusLLVMFwdDecl, f =>
    decide (f = .zero_bits ∨ f = .alignment ∨ f = .size ∨ f = .llvm_fwd_decl)
  | .ResolveStatusLLVMFull, _ => true

/-- The rungs of the ladder: every status but `ResolveStatusInvalid`. -/
def ResolveStatus.is_rung (r : ResolveStatus) : Prop := r ≠ .ResolveStatusInvalid

instance (r : ResolveStatus) : Decidable r.is_rung := by
  unfold ResolveStatus.is_rung; infer_instance

/-- The rungs at which something is known. -/
def known_rungs : List ResolveStatus :=
  [.ResolveStatusZeroBitsKnown, .ResolveStatusAlignmentKnown, .ResolveStatusSizeKnown,
    .ResolveStatusLLVMFwdDecl, .ResolveStatusLLVMFull]

end Zig

namespace Utf8

/-! ## Properties of the table -/

theorem signed_char_le_iff (b : Byte) :
    signed_char b ≤ signed_char 0xBF ↔ cont b := by
  have h : signed_char 0xBF = -65 := by decide
  rw [h]
  unfold signed_char cont
  split <;> omega

theorem Table_3_7_shape {c : List Byte} (h : Table_3_7 c) :
    ∃ b t, c = b :: t ∧ c.length = seqLen b := by
  match c, h with
  | [b1], h => exact ⟨b1, [], rfl, by simp [Table_3_7] at h; simp [seqLen, h]⟩
  | [b1, b2], h =>
    refine ⟨b1, [b2], rfl, ?_⟩
    simp only [Table_3_7] at h
    simp only [seqLen, List.length_cons, List.length_nil]
    split_ifs <;> omega
  | [b1, b2, b3], h =>
    refine ⟨b1, [b2, b3], rfl, ?_⟩
    simp only [Table_3_7] at h
    simp only [seqLen, List.length_cons, List.length_nil]
    split_ifs <;> omega
  | [b1, b2, b3, b4], h =>
    refine ⟨b1, [b2, b3, b4], rfl, ?_⟩
    simp only [Table_3_7] at h
    simp only [seqLen, List.length_cons, List.length_nil]
    split_ifs <;> omega

theorem Table_3_7_prefix_unique {c c' r r' : List Byte} (h : Table_3_7 c)
    (h' : Table_3_7 c') (e : c ++ r = c' ++ r') : c = c' ∧ r = r' := by
  obtain ⟨b, t, rfl, hl⟩ := Table_3_7_shape h
  obtain ⟨b', t', rfl, hl'⟩ := Table_3_7_shape h'
  have hb : b = b' := by
    simp only [List.cons_append, List.cons.injEq] at e
    exact e.1
  subst hb
  exact List.append_inj e (by rw [hl, hl'])

theorem WellFormed_nil : WellFormed [] := ⟨[], by simp, rfl⟩

theorem WellFormed_append {c r : List Byte} (hc : Table_3_7 c) (hr : WellFormed r) :
    WellFormed (c ++ r) := by
  obtain ⟨cs, hcs, rfl⟩ := hr
  refine ⟨c :: cs, ?_, by simp⟩
  intro x hx
  rcases List.mem_cons.1 hx with rfl | hx
  · exact hc
  · exact hcs x hx

theorem WellFormed_uncons {s : List Byte} (h : WellFormed s) (hs : s ≠ []) :
    ∃ c r, Table_3_7 c ∧ s = c ++ r ∧ WellFormed r := by
  obtain ⟨cs, hcs, rfl⟩ := h
  match cs, hcs, hs with
  | [], _, hs => simp at hs
  | c :: cs, hcs, _ =>
    exact ⟨c, cs.flatten, hcs c (List.mem_cons_self _ _), by simp,
      cs, fun x hx => hcs x (List.mem_cons_of_mem _ hx), rfl⟩

theorem WellFormed_append_iff {c r : List Byte} (hc : Table_3_7 c) :
    WellFormed (c ++ r) ↔ WellFormed r := by
  constructor
  · intro h
    obtain ⟨b, t, rfl, _⟩ := Table_3_7_shape hc
    obtain ⟨c', r', hc', e, hr'⟩ := WellFormed_uncons h (by simp)
    obtain ⟨_, rfl⟩ := Table_3_7_prefix_unique hc hc' e
    exact hr'
  · exact WellFormed_append hc

/-! ## One pass of the loop -/

theorem utf8_naive_body_eq (b1 : Byte) (t : List Byte) (len : Nat) (h0 : len ≠ 0)
    (hl : len ≤ (b1 :: t).length) :
    utf8_naive_body (b1 :: t) len =
      some (if seqLen b1 ≤ len ∧ Table_3_7 ((b1 :: t).take (seqLen b1))
        then Step.adv (seqLen b1) else Step.ret0) := by
  rcases t with _ | ⟨b2, _ | ⟨b3, _ | ⟨b4, t⟩⟩⟩ <;>
    simp only [List.length_cons, List.length_nil] at hl <;>
    simp only [utf8_naive_body, utf8_naive_tail, rd, seqLen, signed_char_le_iff, cont,
      List.get?_cons_zero, List.get?_cons_succ, List.get?_nil, Option.bind_eq_bind,
      Option.some_bind, Option.none_bind, Option.pure_def, decide_eq_true_eq,
      Bool.decide_eq_true, ge_iff_le] <;>
    split_ifs <;>
    simp only [List.take, Table_3_7, cont, Option.some.injEq, Step.adv.injEq, reduceCtorEq] at * <;>
    omega

theorem seqLen_pos (b : Byte) : 0 < seqLen b := by
  unfold seqLen; split_ifs <;> omega

/-- A well-formed string that starts with `b1` starts with a row of the table
of length `seqLen b1`. -/
theorem WellFormed_take_head {b1 : Byte} {t : List Byte} {len : Nat}
    (hl : len ≤ (b1 :: t).length) (h0 : len ≠ 0)
    (h : WellFormed ((b1 :: t).take len)) :
    seqLen b1 ≤ len ∧ Table_3_7 ((b1 :: t).take (seqLen b1)) := by
  obtain ⟨n, rfl⟩ : ∃ n, len = n + 1 := ⟨len - 1, by omega⟩
  obtain ⟨c, r, hc, e, _⟩ := WellFormed_uncons h (by simp)
  obtain ⟨b, u, rfl, hlen⟩ := Table_3_7_shape hc
  have hb : b1 = b := by
    simp only [List.take_succ_cons, List.cons_append, List.cons.injEq] at e
    exact e.1
  subst hb
  have hlen2 : ((b1 :: t).take (n + 1)).length = (b1 :: u).length + r.length := by
    rw [e, List.length_append]
  rw [List.length_take, Nat.min_eq_left hl] at hlen2
  have hle : seqLen b1 ≤ n + 1 := by omega
  refine ⟨hle, ?_⟩
  have : (b1 :: t).take (seqLen b1) = b1 :: u := by
    have h1 : ((b1 :: t).take (n + 1)).take (seqLen b1) = (b1 :: u) := by
      rw [e, ← hlen, List.take_left]
    rw [List.take_take, Nat.min_eq_left hle] at h1
    exact h1
  rw [this]; exact hc

/-- The loop returns `1` on well-formed input and `0` on the rest, as soon as
the bound on the passes is at least `len`. -/
theorem utf8_naive_loop_spec (fuel : Nat) : ∀ (data : List Byte) (len : Nat),
    len ≤ fuel → len ≤ data.length →
    (utf8_naive_loop fuel data len = some 1 ∧ WellFormed (data.take len)) ∨
    (utf8_naive_loop fuel data len = some 0 ∧ ¬ WellFormed (data.take len)) := by
  induction fuel with
  | zero =>
    intro data len hf _
    have : len = 0 := by omega
    subst this
    left
    exact ⟨by simp [utf8_naive_loop], by simpa using WellFormed_nil⟩
  | succ fuel ih =>
    intro data len hf hl
    by_cases h0 : len = 0
    · subst h0
      left
      exact ⟨by simp [utf8_naive_loop], by simpa using WellFormed_nil⟩
    · match data, hl with
      | [], hl => simp at hl; exact absurd hl h0
      | b1 :: t, hl =>
        have hbody := utf8_naive_body_eq b1 t len h0 hl
        by_cases hc : seqLen b1 ≤ len ∧ Table_3_7 ((b1 :: t).take (seqLen b1))
        · rw [if_pos hc] at hbody
          have hpos := seqLen_pos b1
          have hstep : utf8_naive_loop (fuel + 1) (b1 :: t) len =
              utf8_naive_loop fuel ((b1 :: t).drop (seqLen b1)) (len - seqLen b1) := by
            rw [utf8_naive_loop, if_neg h0]
            simp only [hbody]
          have hsplit : (b1 :: t).take len = (b1 :: t).take (seqLen b1) ++
              ((b1 :: t).drop (seqLen b1)).take (len - seqLen b1) := by
            have : len = seqLen b1 + (len - seqLen b1) := by omega
            conv_lhs => rw [this]
            exact List.take_add _ _ _
          rw [hstep, hsplit, WellFormed_append_iff hc.2]
          exact ih _ _ (by omega) (by rw [List.length_drop]; omega)
        · rw [if_neg hc] at hbody
          right
          refine ⟨?_, fun hw => hc (WellFormed_take_head hl h0 hw)⟩
          rw [utf8_naive_loop, if_neg h0]
          simp only [hbody]

/-- The loop never runs out of passes when started with `len` of them: the
function `utf8_naive` returns `0` or `1` on every buffer of at least `len`
bytes. -/
theorem utf8_naive_loop_fuel (data : List Byte) (len : Nat) (h : len ≤ data.length) :
    utf8_naive data len = some 1 ∨ utf8_naive data len = some 0 := by
  rcases utf8_naive_loop_spec len data len (Nat.le_refl _) h with h1 | h1
  · exact Or.inl h1.1
  · exact Or.inr h1.1

theorem utf8_naive_eq_one_iff (data : List Byte) (len : Nat) (h : len ≤ data.length) :
    utf8_naive data len = some 1 ↔ WellFormed (data.take len) := by
  rcases utf8_naive_loop_spec len data len (Nat.le_refl _) h with h1 | h1
  · exact ⟨fun _ => h1.2, fun _ => h1.1⟩
  · constructor
    · intro h2
      rw [utf8_naive, h1.1] at h2
      cases h2
    · intro h2
      exact absurd h2 h1.2

theorem utf8_naive_eq_zero_iff (data : List Byte) (len : Nat) (h : len ≤ data.length) :
    utf8_naive data len = some 0 ↔ ¬ WellFormed (data.take len) := by
  rcases utf8_naive_loop_spec len data len (Nat.le_refl _) h with h1 | h1
  · constructor
    · intro h2
      rw [utf8_naive, h1.1] at h2
      cases h2
    · intro h2
      exact absurd h1.2 h2
  · exact ⟨fun _ => h1.2, fun _ => h1.1⟩

/-- Acceptance of a whole byte string. -/
theorem accepts_iff (s : List Byte) : utf8_naive s s.length = some 1 ↔ WellFormed s := by
  have := utf8_naive_eq_one_iff s s.length (Nat.le_refl _)
  rwa [List.take_length] at this

theorem rejects_iff (s : List Byte) : utf8_naive s s.length = some 0 ↔ ¬ WellFormed s := by
  have := utf8_naive_eq_zero_iff s s.length (Nat.le_refl _)
  rwa [List.take_length] at this

/-- A well-formed prefix can be dropped. -/
theorem WellFormed_prefix_iff {p s : List Byte} (hp : WellFormed p) :
    WellFormed (p ++ s) ↔ WellFormed s := by
  obtain ⟨cs, hcs, rfl⟩ := hp
  induction cs with
  | nil => simp
  | cons c cs ih =>
    have hc : Table_3_7 c := hcs c (List.mem_cons_self _ _)
    rw [List.flatten_cons, List.append_assoc, WellFormed_append_iff hc]
    exact ih (fun x hx => hcs x (List.mem_cons_of_mem _ hx))

/-- A string whose first `seqLen b` bytes are not a row of the table is not
well formed. -/
theorem not_WellFormed_of_head {b : Byte} {t : List Byte}
    (h : ¬ Table_3_7 ((b :: t).take (seqLen b))) : ¬ WellFormed (b :: t) := by
  intro hw
  have := @WellFormed_take_head b t (b :: t).length
    (Nat.le_refl _) (by simp) (by rwa [List.take_length])
  exact h this.2

/-- After an accepted prefix, a string that does not start with a row of the
table is rejected. -/
theorem rejects_after_accepted {p : List Byte} {b : Byte} {t : List Byte}
    (hp : utf8_naive p p.length = some 1)
    (h : ¬ Table_3_7 ((b :: t).take (seqLen b))) :
    utf8_naive (p ++ b :: t) (p ++ b :: t).length = some 0 := by
  rw [rejects_iff, WellFormed_prefix_iff ((accepts_iff p).1 hp)]
  exact not_WellFormed_of_head h

theorem byte_val (n : Nat) : (byte n).val = n % 256 := rfl

theorem Table_3_7_encode {c : Nat} (h : isScalar c) : Table_3_7 (utf8_encode c) := by
  unfold isScalar at h
  unfold utf8_encode
  split_ifs <;> simp only [Table_3_7, cont, byte_val] <;> omega

theorem byte_eq {b : Byte} {n : Nat} (h : b.val = n) : byte n = b := by
  apply Fin.ext
  rw [byte_val, ← h]
  exact Nat.mod_eq_of_lt b.isLt

theorem Table_3_7_decode {ch : List Byte} (h : Table_3_7 ch) :
    ∃ c, isScalar c ∧ utf8_encode c = ch := by
  match ch, h with
  | [b1], h =>
    simp only [Table_3_7] at h
    refine ⟨b1.val, Or.inl (by omega), ?_⟩
    rw [utf8_encode, if_pos h, byte_eq rfl]
  | [b1, b2], h =>
    simp only [Table_3_7, cont] at h
    refine ⟨(b1.val - 0xC0) * 64 + (b2.val - 0x80), Or.inl (by omega), ?_⟩
    rw [utf8_encode, if_neg (by omega), if_pos (by omega),
      byte_eq (b := b1) (by omega), byte_eq (b := b2) (by omega)]
  | [b1, b2, b3], h =>
    simp only [Table_3_7, cont] at h
    refine ⟨(b1.val - 0xE0) * 4096 + (b2.val - 0x80) * 64 + (b3.val - 0x80), ?_, ?_⟩
    · unfold isScalar; omega
    · rw [utf8_encode, if_neg (by omega), if_neg (by omega), if_pos (by omega),
        byte_eq (b := b1) (by omega), byte_eq (b := b2) (by omega), byte_eq (b := b3) (by omega)]
  | [b1, b2, b3, b4], h =>
    simp only [Table_3_7, cont] at h
    refine ⟨(b1.val - 0xF0) * 262144 + (b2.val - 0x80) * 4096 + (b3.val - 0x80) * 64 +
      (b4.val - 0x80), ?_, ?_⟩
    · unfold isScalar; omega
    · rw [utf8_encode, if_neg (by omega), if_neg (by omega), if_neg (by omega),
        byte_eq (b := b1) (by omega), byte_eq (b := b2) (by omega), byte_eq (b := b3) (by omega),
        byte_eq (b := b4) (by omega)]

theorem WellFormed_iff_encoding (s : List Byte) :
    WellFormed s ↔ ∃ cps : List Nat, (∀ c ∈ cps, isScalar c) ∧ utf8_encode_all cps = s := by
  constructor
  · rintro ⟨cs, hcs, rfl⟩
    induction cs with
    | nil => exact ⟨[], by simp, rfl⟩
    | cons c cs ih =>
      obtain ⟨cps, hcps, e⟩ := ih (fun x hx => hcs x (List.mem_cons_of_mem _ hx))
      obtain ⟨cp, hcp, e1⟩ := Table_3_7_decode (hcs c (List.mem_cons_self _ _))
      refine ⟨cp :: cps, ?_, ?_⟩
      · intro x hx
        rcases List.mem_cons.1 hx with rfl | hx
        · exact hcp
        · exact hcps x hx
      · simp only [utf8_encode_all, List.map_cons, List.flatten_cons] at e ⊢
        rw [e, e1]
  · rintro ⟨cps, hcps, rfl⟩
    refine ⟨cps.map utf8_encode, ?_, rfl⟩
    intro c hc
    obtain ⟨cp, hcp, rfl⟩ := List.mem_map.1 hc
    exact Table_3_7_encode (hcps cp hcp)

/-- C2: `utf8_naive` accepts exactly the UTF-8 encodings of sequences of
Unicode scalar values: it returns `1` on `s` with `len = |s|` if and only if
`s` is the concatenation of the standard encodings of a list of code points
that all lie in `U+0000..U+D7FF` or `U+E000..U+10FFFF`. -/
theorem accepts_iff_scalar_encoding (s : List Byte) :
    utf8_naive s s.length = some 1 ↔
      ∃ cps : List Nat, (∀ c ∈ cps, isScalar c) ∧ utf8_encode_all cps = s := by
  rw [accepts_iff, WellFormed_iff_encoding]

/-! ## Main theorems about `utf8_naive` -/

/-- C1: for every buffer `data` and every `len` up to its size, `utf8_naive`
returns `1` if and only if the first `len` bytes split into consecutive chunks
that each match a row of Table 3-7; it returns `0` when they do not; and it
returns no other value (in particular it never reads outside the buffer). -/
theorem utf8_naive_table (data : List Byte) (len : Nat) (h : len ≤ data.length) :
    (utf8_naive data len = some 1 ↔ WellFormed (data.take len)) ∧
    (¬ WellFormed (data.take len) → utf8_naive data len = some 0) ∧
    (utf8_naive data len = some 1 ∨ utf8_naive data len = some 0) :=
  ⟨utf8_naive_eq_one_iff data len h, (utf8_naive_eq_zero_iff data len h).2,
    utf8_naive_loop_fuel data len h⟩

theorem utf8_naive_table_witness :
    2 ≤ ([0xC3, 0xA9, 0xFF] : List Byte).length ∧
    ((utf8_naive [0xC3, 0xA9, 0xFF] 2 = some 1 ↔
        WellFormed (([0xC3, 0xA9, 0xFF] : List Byte).take 2)) ∧
      (¬ WellFormed (([0xC3, 0xA9, 0xFF] : List Byte).take 2) →
        utf8_naive [0xC3, 0xA9, 0xFF] 2 = some 0) ∧
      (utf8_naive [0xC3, 0xA9, 0xFF] 2 = some 1 ∨ utf8_naive [0xC3, 0xA9, 0xFF] 2 = some 0)) :=
  ⟨by decide, utf8_naive_table [0xC3, 0xA9, 0xFF] 2 (by decide)⟩

/-- C3: encoded surrogates are rejected: after an accepted string `p`, the
bytes `ED b2` with `b2` in `A0..BF` make `utf8_naive` return `0`, whatever
follows. -/
theorem surrogates_rejected (p : List Byte) (b2 : Byte) (rest : List Byte)
    (hp : utf8_naive p p.length = some 1) (hb : 0xA0 ≤ b2.val ∧ b2.val ≤ 0xBF) :
    utf8_naive (p ++ [0xED, b2] ++ rest) (p ++ [0xED, b2] ++ rest).length = some 0 := by
  have e : p ++ [0xED, b2] ++ rest = p ++ (0xED : Byte) :: (b2 :: rest) := by simp
  rw [e]
  apply rejects_after_accepted hp
  have hs : seqLen (0xED : Byte) = 3 := by decide
  rw [hs]
  rcases rest with _ | ⟨b3, rest⟩ <;> simp [Table_3_7, cont] <;> omega

theorem surrogates_rejected_witness :
    utf8_naive ([0x41] : List Byte) ([0x41] : List Byte).length = some 1 ∧
    utf8_naive (([0x41] : List Byte) ++ [0xED, 0xA0] ++ [0x80])
      (([0x41] : List Byte) ++ [0xED, 0xA0] ++ [0x80]).length = some 0 :=
  ⟨by decide, surrogates_rejected [0x41] 0xA0 [0x80] (by decide) (by decide)⟩

/-- C4: overlong 3- and 4-byte encodings are rejected: after an accepted
string `p`, `utf8_naive` returns `0` on `E0 b` with `b` in `80..9F` and on
`F0 b` with `b` in `80..8F`, whatever follows. -/
theorem overlong_rejected (p rest : List Byte) (hp : utf8_naive p p.length = some 1) :
    (∀ b : Byte, 0x80 ≤ b.val ∧ b.val ≤ 0x9F →
      utf8_naive (p ++ [0xE0, b] ++ rest) (p ++ [0xE0, b] ++ rest).length = some 0) ∧
    (∀ b : Byte, 0x80 ≤ b.val ∧ b.val ≤ 0x8F →
      utf8_naive (p ++ [0xF0, b] ++ rest) (p ++ [0xF0, b] ++ rest).length = some 0) := by
  constructor
  · intro b hb
    have e : p ++ [0xE0, b] ++ rest = p ++ (0xE0 : Byte) :: (b :: rest) := by simp
    rw [e]
    apply rejects_after_accepted hp
    have hs : seqLen (0xE0 : Byte) = 3 := by decide
    rw [hs]
    rcases rest with _ | ⟨b3, rest⟩ <;> simp [Table_3_7, cont] <;> omega
  · intro b hb
    have e : p ++ [0xF0, b] ++ rest = p ++ (0xF0 : Byte) :: (b :: rest) := by simp
    rw [e]
    apply rejects_after_accepted hp
    have hs : seqLen (0xF0 : Byte) = 4 := by decide
    rw [hs]
    rcases rest with _ | ⟨b3, _ | ⟨b4, rest⟩⟩ <;> simp [Table_3_7, cont] <;> omega

/-- C5: code points above `U+10FFFF` are rejected: after an accepted string
`p`, `utf8_naive` returns `0` on `F4 b` with `b` in `90..BF` and on every lead
byte in `F5..FF`, whatever follows. -/
theorem above_10FFFF_rejected (p rest : List Byte) (hp : utf8_naive p p.length = some 1) :
    (∀ b : Byte, 0x90 ≤ b.val ∧ b.val ≤ 0xBF →
      utf8_naive (p ++ [0xF4, b] ++ rest) (p ++ [0xF4, b] ++ rest).length = some 0) ∧
    (∀ L : Byte, 0xF5 ≤ L.val ∧ L.val ≤ 0xFF →
      utf8_naive (p ++ [L] ++ rest) (p ++ [L] ++ rest).length = some 0) := by
  constructor
  · intro b hb
    have e : p ++ [0xF4, b] ++ rest = p ++ (0xF4 : Byte) :: (b :: rest) := by simp
    rw [e]
    apply rejects_after_accepted hp
    have hs : seqLen (0xF4 : Byte) = 4 := by decide
    rw [hs]
    rcases rest with _ | ⟨b3, _ | ⟨b4, rest⟩⟩ <;> simp [Table_3_7, cont] <;> omega
  · intro L hL
    have e : p ++ [L] ++ rest = p ++ L :: rest := by simp
    rw [e]
    apply rejects_after_accepted hp
    have hs : seqLen L = 4 := by unfold seqLen; split_ifs <;> omega
    rw [hs]
    rcases rest with _ | ⟨b2, _ | ⟨b3, _ | ⟨b4, rest⟩⟩⟩ <;> simp [Table_3_7, cont] <;> omega

theorem Table_3_7_no_forbidden {c : List Byte} (h : Table_3_7 c) :
    ∀ b ∈ c, b.val ≠ 0xC0 ∧ b.val ≠ 0xC1 ∧ ¬ (0xF5 ≤ b.val ∧ b.val ≤ 0xFF) := by
  match c, h with
  | [b1], h =>
    simp only [Table_3_7] at h
    simp only [List.mem_singleton, forall_eq]
    omega
  | [b1, b2], h =>
    simp only [Table_3_7, cont] at h
    simp only [List.mem_cons, List.mem_singleton, forall_eq_or_imp, forall_eq, List.not_mem_nil, or_false]
    omega
  | [b1, b2, b3], h =>
    simp only [Table_3_7, cont] at h
    simp only [List.mem_cons, List.mem_singleton, forall_eq_or_imp, forall_eq, List.not_mem_nil, or_false]
    omega
  | [b1, b2, b3, b4], h =>
    simp only [Table_3_7, cont] at h
    simp only [List.mem_cons, List.mem_singleton, forall_eq_or_imp, forall_eq, List.not_mem_nil, or_false]
    omega

theorem overlong_rejected_witness :
    utf8_naive ([0x41] : List Byte) ([0x41] : List Byte).length = some 1 ∧
    (0x80 ≤ (0x9F : Byte).val ∧ (0x9F : Byte).val ≤ 0x9F) ∧
    utf8_naive (([0x41] : List Byte) ++ [0xE0, 0x9F] ++ [0x80])
      (([0x41] : List Byte) ++ [0xE0, 0x9F] ++ [0x80]).length = some 0 ∧
    (0x80 ≤ (0x8F : Byte).val ∧ (0x8F : Byte).val ≤ 0x8F) ∧
    utf8_naive (([0x41] : List Byte) ++ [0xF0, 0x8F] ++ [0x80, 0x80])
      (([0x41] : List Byte) ++ [0xF0, 0x8F] ++ [0x80, 0x80]).length = some 0 :=
  ⟨by decide, by decide,
    (overlong_rejected [0x41] [0x80] (by decide)).1 0x9F (by decide), by decide,
    (overlong_rejected [0x41] [0x80, 0x80] (by decide)).2 0x8F (by decide)⟩

theorem above_10FFFF_rejected_witness :
    utf8_naive ([0x41] : List Byte) ([0x41] : List Byte).length = some 1 ∧
    (0x90 ≤ (0x90 : Byte).val ∧ (0x90 : Byte).val ≤ 0xBF) ∧
    utf8_naive (([0x41] : List Byte) ++ [0xF4, 0x90] ++ [0x80, 0x80])
      (([0x41] : List Byte) ++ [0xF4, 0x90] ++ [0x80, 0x80]).length = some 0 ∧
    (0xF5 ≤ (0xF5 : Byte).val ∧ (0xF5 : Byte).val ≤ 0xFF) ∧
    utf8_naive (([0x41] : List Byte) ++ [0xF5] ++ [0x80, 0x80, 0x80])
      (([0x41] : List Byte) ++ [0xF5] ++ [0x80, 0x80, 0x80]).length = some 0 :=
  ⟨by decide, by decide,
    (above_10FFFF_rejected [0x41] [0x80, 0x80] (by decide)).1 0x90 (by decide), by decide,
    (above_10FFFF_rejected [0x41] [0x80, 0x80, 0x80] (by decide)).2 0xF5 (by decide)⟩

/-- C6: no accepted input contains a forbidden byte: when `utf8_naive` returns
`1` on `s`, no byte of `s` is `C0`, `C1` or in `F5..FF`. -/
theorem no_forbidden_byte (s : List Byte) (h : utf8_naive s s.length = some 1) :
    ∀ b ∈ s, b.val ≠ 0xC0 ∧ b.val ≠ 0xC1 ∧ ¬ (0xF5 ≤ b.val ∧ b.val ≤ 0xFF) := by
  obtain ⟨cs, hcs, rfl⟩ := (accepts_iff s).1 h
  intro b hb
  obtain ⟨c, hc, hbc⟩ := List.mem_flatten.1 hb
  exact Table_3_7_no_forbidden (hcs c hc) b hbc

theorem no_forbidden_byte_witness :
    utf8_naive ([0x41, 0xC3, 0xA9] : List Byte) ([0x41, 0xC3, 0xA9] : List Byte).length =
      some 1 ∧
    ∀ b ∈ ([0x41, 0xC3, 0xA9] : List Byte),
      b.val ≠ 0xC0 ∧ b.val ≠ 0xC1 ∧ ¬ (0xF5 ≤ b.val ∧ b.val ≤ 0xFF) :=
  ⟨by decide, no_forbidden_byte [0x41, 0xC3, 0xA9] (by decide)⟩

/-- C7: truncated sequences are rejected: after an accepted string `p`, the
first `k` bytes of a 2-, 3- or 4-byte row `s` of Table 3-7, with `0 < k < |s|`,
make `utf8_naive` return `0`. -/
theorem truncated_rejected (p s : List Byte) (k : Nat)
    (hp : utf8_naive p p.length = some 1) (hs : Table_3_7 s) (hm : 2 ≤ s.length)
    (hk : 0 < k ∧ k < s.length) :
    utf8_naive (p ++ s.take k) (p ++ s.take k).length = some 0 := by
  obtain ⟨b, u, rfl, hlen⟩ := Table_3_7_shape hs
  obtain ⟨n, rfl⟩ : ∃ n, k = n + 1 := ⟨k - 1, by omega⟩
  rw [List.take_succ_cons]
  apply rejects_after_accepted hp
  intro ht
  obtain ⟨b', u', e, hlen'⟩ := Table_3_7_shape ht
  have hb : b = b' := by
    have h1 : 0 < seqLen b := seqLen_pos b
    obtain ⟨m, hm⟩ : ∃ m, seqLen b = m + 1 := ⟨seqLen b - 1, by omega⟩
    rw [hm, List.take_succ_cons] at e
    exact (List.cons.inj e).1
  subst hb
  have h2 : (List.take (seqLen b) (b :: List.take n u)).length ≤ n + 1 := by
    refine Nat.le_trans (List.length_take_le' _ _) ?_
    simp only [List.length_cons, List.length_take]
    omega
  rw [hlen] at hk
  omega

theorem truncated_rejected_witness :
    utf8_naive ([0x41] : List Byte) ([0x41] : List Byte).length = some 1 ∧
    Table_3_7 [0xE2, 0x82, 0xAC] ∧
    2 ≤ ([0xE2, 0x82, 0xAC] : List Byte).length ∧
    (0 < 2 ∧ 2 < ([0xE2, 0x82, 0xAC] : List Byte).length) ∧
    utf8_naive (([0x41] : List Byte) ++ ([0xE2, 0x82, 0xAC] : List Byte).take 2)
      (([0x41] : List Byte) ++ ([0xE2, 0x82, 0xAC] : List Byte).take 2).length = some 0 :=
  ⟨by decide, by decide, by decide, by decide,
    truncated_rejected [0x41] [0xE2, 0x82, 0xAC] 2 (by decide) (by decide) (by decide)
      (by decide)⟩

/-- C8: a continuation byte in lead position is rejected: after an accepted
string `p`, a byte in `80..BF` makes `utf8_naive` return `0`, whatever
follows. -/
theorem continuation_lead_rejected (p : List Byte) (b : Byte) (rest : List Byte)
    (hp : utf8_naive p p.length = some 1) (hb : 0x80 ≤ b.val ∧ b.val ≤ 0xBF) :
    utf8_naive (p ++ [b] ++ rest) (p ++ [b] ++ rest).length = some 0 := by
  have e : p ++ [b] ++ rest = p ++ b :: rest := by simp
  rw [e]
  apply rejects_after_accepted hp
  have hs : seqLen b = 2 := by unfold seqLen; split_ifs <;> omega
  rw [hs]
  rcases rest with _ | ⟨b2, rest⟩ <;> simp [Table_3_7, cont] <;> omega

theorem continuation_lead_rejected_witness :
    utf8_naive ([0x41] : List Byte) ([0x41] : List Byte).length = some 1 ∧
    (0x80 ≤ (0x80 : Byte).val ∧ (0x80 : Byte).val ≤ 0xBF) ∧
    utf8_naive (([0x41] : List Byte) ++ [0x80] ++ [0x41])
      (([0x41] : List Byte) ++ [0x80] ++ [0x41]).length = some 0 :=
  ⟨by decide, by decide, continuation_lead_rejected [0x41] 0x80 [0x41] (by decide) (by decide)⟩

/-- C20: every pure-ASCII input is accepted: when all bytes of `s` are at most
`0x7F`, `utf8_naive` returns `1` on `s` with `len = |s|`. -/
theorem ascii_accepted (s : List Byte) (h : ∀ b ∈ s, b.val ≤ 0x7F) :
    utf8_naive s s.length = some 1 := by
  rw [accepts_iff]
  refine ⟨s.map (fun b => [b]), ?_, ?_⟩
  · intro c hc
    obtain ⟨b, hb, rfl⟩ := List.mem_map.1 hc
    exact h b hb
  · induction s with
    | nil => rfl
    | cons b s ih =>
      simp only [List.map_cons, List.flatten_cons, List.singleton_append, List.cons.injEq,
        true_and]
      exact ih (fun x hx => h x (List.mem_cons_of_mem _ hx))

theorem ascii_accepted_witness :
    (∀ b ∈ ([0x48, 0x69, 0x7F] : List Byte), b.val ≤ 0x7F) ∧
    utf8_naive ([0x48, 0x69, 0x7F] : List Byte) ([0x48, 0x69, 0x7F] : List Byte).length =
      some 1 :=
  ⟨by simp; decide, ascii_accepted [0x48, 0x69, 0x7F] (by simp; decide)⟩

end Utf8

namespace Zig

/-! ## The type interner -/

theorem type_id_eql_iff (a b : TypeId) : type_id_eql a b = true ↔ a = b := by
  cases a <;> cases b <;> simp [type_id_eql, and_assoc]

theorem type_table_get_cons (k1 k : TypeId) (p : ZigTypePtr) (rest : List (TypeId × ZigTypePtr)) :
    type_table_get ((k1, p) :: rest) k = if k1 = k then some p else type_table_get rest k := by
  by_cases h : k1 = k
  · subst h
    simp [type_table_get, (type_id_eql_iff k1 k1).2 rfl]
  · have : type_id_eql k1 k = false := by
      cases h1 : type_id_eql k1 k
      · rfl
      · exact absurd ((type_id_eql_iff k1 k).1 h1) h
    simp [type_table_get, this, h]

theorem tld_find_cons (t : TldContainer) (rest : List TldContainer) (d : AstNodePtr) :
    tld_find (t :: rest) d = if t.source_node = d then some t.type_entry else tld_find rest d :=
  rfl

theorem key_of_set_resolved (st : ResolveStatus) (t : ZigType) :
    key_of (set_resolved st t) = key_of t := by
  obtain ⟨id, data⟩ := t
  cases data <;> rfl

theorem decl_node_of_set_resolved (st : ResolveStatus) (t : ZigType) :
    decl_node_of (set_resolved st t) = decl_node_of t := by
  obtain ⟨id, data⟩ := t
  cases data <;> rfl

theorem key_of_new_container (d : AstNodePtr) (decl : AstNodeContainerDecl) :
    key_of (new_container_type d decl) = none := by
  obtain ⟨kind, f, ds, l⟩ := decl
  cases kind <;> rfl

theorem decl_node_of_new_container (d : AstNodePtr) (decl : AstNodeContainerDecl) :
    decl_node_of (new_container_type d decl) = some d := by
  obtain ⟨kind, f, ds, l⟩ := decl
  cases kind <;> rfl

/-- The instance at an address after an allocation. -/
theorem getElem?_alloc (ts : List ZigType) (t : ZigType) (p : Nat) :
    (ts ++ [t])[p]? = if p = ts.length then some t else ts[p]? := by
  by_cases h : p < ts.length
  · rw [List.getElem?_append_left h, if_neg (by omega)]
  · by_cases h1 : p = ts.length
    · subst h1
      simp
    · rw [if_neg h1, List.getElem?_eq_none (by simp; omega), List.getElem?_eq_none (by omega)]

theorem Inv_init : Inv CodeGen.init :=
  ⟨fun k p h => by simp [CodeGen.init, type_table_get] at h,
   fun p t k h => by simp [CodeGen.init] at h,
   fun d p h => by simp [CodeGen.init, tld_find] at h⟩

theorem Inv_bound {g : CodeGen} {p : Nat} {t : ZigType} (h : g.types[p]? = some t) :
    p < g.types.length := by
  by_contra hn
  rw [List.getElem?_eq_none (by omega)] at h
  cases h

theorem Inv_get_or_create {g : CodeGen} (hg : Inv g) (k : TypeId) :
    Inv (get_or_create g k).2 := by
  unfold get_or_create
  cases hk : type_table_get g.type_table k with
  | some p => exact hg
  | none =>
    refine ⟨?_, ?_, ?_⟩
    · intro k1 p h
      simp only [type_table_get_cons] at h
      simp only [getElem?_alloc]
      by_cases e : k = k1
      · subst e
        simp only [if_true, Option.some.injEq] at h
        subst h
        exact ⟨⟨k.id, ZigTypeData.keyed k⟩, by simp, rfl⟩
      · rw [if_neg e] at h
        obtain ⟨t, ht, hkey⟩ := hg.table_sound k1 p h
        exact ⟨t, by rw [if_neg (by have := Inv_bound ht; omega)]; exact ht, hkey⟩
    · intro p t k1 h hkey
      simp only [getElem?_alloc] at h
      simp only [type_table_get_cons]
      by_cases e : p = g.types.length
      · rw [if_pos e, Option.some.injEq] at h
        subst h
        have : k = k1 := by simpa [key_of] using hkey
        rw [if_pos this, e]
      · rw [if_neg e] at h
        have h1 := hg.table_complete p t k1 h hkey
        have : k ≠ k1 := by
          rintro rfl
          rw [hk] at h1
          cases h1
        rw [if_neg this]
        exact h1
    · intro d p h
      obtain ⟨t, ht, hd⟩ := hg.tld_sound d p h
      refine ⟨t, ?_, hd⟩
      simp only [getElem?_alloc]
      rw [if_neg (by have := Inv_bound ht; omega)]
      exact ht

theorem Inv_get_container_type {g : CodeGen} (hg : Inv g) (d : AstNodePtr)
    (decl : AstNodeContainerDecl) : Inv (get_container_type g d decl).2 := by
  unfold get_container_type
  cases hk : tld_find g.tlds d with
  | some p => exact hg
  | none =>
    refine ⟨?_, ?_, ?_⟩
    · intro k p h
      obtain ⟨t, ht, hkey⟩ := hg.table_sound k p h
      refine ⟨t, ?_, hkey⟩
      simp only [getElem?_alloc]
      rw [if_neg (by have := Inv_bound ht; omega)]
      exact ht
    · intro p t k h hkey
      simp only [getElem?_alloc] at h
      by_cases e : p = g.types.length
      · rw [if_pos e, Option.some.injEq] at h
        subst h
        rw [key_of_new_container] at hkey
        cases hkey
      · rw [if_neg e] at h
        exact hg.table_complete p t k h hkey
    · intro d1 p h
      simp only [tld_find_cons] at h
      simp only [getElem?_alloc]
      by_cases e : d = d1
      · subst e
        simp only [if_true, Option.some.injEq] at h
        subst h
        exact ⟨new_container_type d decl, by simp, decl_node_of_new_container d decl⟩
      · rw [if_neg e] at h
        obtain ⟨t, ht, hd⟩ := hg.tld_sound d1 p h
        exact ⟨t, by rw [if_neg (by have := Inv_bound ht; omega)]; exact ht, hd⟩

/-- The instance at an address after the resolution of the instance at `t`. -/
theorem getElem?_resolve_layout (g : CodeGen) (t : ZigTypePtr) (st : ResolveStatus) (p : Nat) :
    (resolve_layout g t st).types[p]? = (g.types[p]?).map
      (fun ty => if t = p then set_resolved st ty else ty) := by
  unfold resolve_layout
  cases h : g.types[t]? with
  | none =>
    by_cases e : t = p
    · subst e
      simp [h]
    · cases h1 : g.types[p]? <;> simp [h1, e]
  | some ty =>
    simp only [List.getElem?_set]
    by_cases e : t = p
    · subst e
      have := Inv_bound h
      simp [h, this]
    · cases h1 : g.types[p]? <;> simp [h1, e]

theorem Inv_resolve_layout {g : CodeGen} (hg : Inv g) (t : ZigTypePtr) (st : ResolveStatus) :
    Inv (resolve_layout g t st) := by
  have htab : (resolve_layout g t st).type_table = g.type_table := by
    unfold resolve_layout; split <;> rfl
  have htld : (resolve_layout g t st).tlds = g.tlds := by
    unfold resolve_layout; split <;> rfl
  refine ⟨?_, ?_, ?_⟩
  · intro k p h
    rw [htab] at h
    obtain ⟨ty, hty, hkey⟩ := hg.table_sound k p h
    rw [getElem?_resolve_layout, hty]
    refine ⟨_, rfl, ?_⟩
    split_ifs
    · rw [key_of_set_resolved]; exact hkey
    · exact hkey
  · intro p ty k h hkey
    rw [htab]
    rw [getElem?_resolve_layout] at h
    cases h1 : g.types[p]? with
    | none => rw [h1] at h; cases h
    | some ty0 =>
      rw [h1, Option.map_some', Option.some.injEq] at h
      subst h
      refine hg.table_complete p ty0 k h1 ?_
      split_ifs at hkey
      · rwa [key_of_set_resolved] at hkey
      · exact hkey
  · intro d p h
    rw [htld] at h
    obtain ⟨ty, hty, hd⟩ := hg.tld_sound d p h
    rw [getElem?_resolve_layout, hty]
    refine ⟨_, rfl, ?_⟩
    split_ifs
    · rw [decl_node_of_set_resolved]; exact hd
    · exact hd

theorem Inv_step {g : CodeGen} (hg : Inv g) (op : Op) : Inv (step g op) := by
  cases op with
  | intern k => exact Inv_get_or_create hg k
  | container d decl => exact Inv_get_container_type hg d decl
  | resolve t st => exact Inv_resolve_layout hg t st

theorem Inv_run (ops : List Op) : ∀ {g : CodeGen}, Inv g → Inv (run g ops) := by
  induction ops with
  | nil => intro g hg; exact hg
  | cons op ops ih => intro g hg; exact ih (Inv_step hg op)

/-! ### The memos only grow -/

theorem get_or_create_found (g : CodeGen) (k : TypeId) :
    type_table_get (get_or_create g k).2.type_table k = some (get_or_create g k).1 := by
  unfold get_or_create
  cases hk : type_table_get g.type_table k with
  | some p => exact hk
  | none => simp [type_table_get_cons]

theorem get_or_create_of_found {g : CodeGen} {k : TypeId} {p : ZigTypePtr}
    (h : type_table_get g.type_table k = some p) : (get_or_create g k).1 = p := by
  unfold get_or_create
  rw [h]

theorem get_container_type_found (g : CodeGen) (d : AstNodePtr) (decl : AstNodeContainerDecl) :
    tld_find (get_container_type g d decl).2.tlds d = some (get_container_type g d decl).1 := by
  unfold get_container_type
  cases hk : tld_find g.tlds d with
  | some p => exact hk
  | none => simp [tld_find_cons]

theorem get_container_type_of_found {g : CodeGen} {d : AstNodePtr} {decl : AstNodeContainerDecl}
    {p : ZigTypePtr} (h : tld_find g.tlds d = some p) : (get_container_type g d decl).1 = p := by
  unfold get_container_type
  rw [h]

theorem step_type_table {g : CodeGen} {k : TypeId} {p : ZigTypePtr} (op : Op)
    (h : type_table_get g.type_table k = some p) :
    type_table_get (step g op).type_table k = some p := by
  cases op with
  | intern k1 =>
    simp only [step, get_or_create]
    cases hk : type_table_get g.type_table k1 with
    | some q => exact h
    | none =>
      simp only [type_table_get_cons]
      have : k1 ≠ k := by
        rintro rfl
        rw [hk] at h
        cases h
      rw [if_neg this]
      exact h
  | container d decl =>
    simp only [step, get_container_type]
    cases hk : tld_find g.tlds d <;> exact h
  | resolve t st =>
    simp only [step, resolve_layout]
    cases hk : g.types[t]? <;> exact h

theorem step_tlds {g : CodeGen} {d : AstNodePtr} {p : ZigTypePtr} (op : Op)
    (h : tld_find g.tlds d = some p) : tld_find (step g op).tlds d = some p := by
  cases op with
  | intern k1 =>
    simp only [step, get_or_create]
    cases hk : type_table_get g.type_table k1 <;> exact h
  | container d1 decl =>
    simp only [step, get_container_type]
    cases hk : tld_find g.tlds d1 with
    | some q => exact h
    | none =>
      simp only [tld_find_cons]
      have : d1 ≠ d := by
        rintro rfl
        rw [hk] at h
        cases h
      rw [if_neg this]
      exact h
  | resolve t st =>
    simp only [step, resolve_layout]
    cases hk : g.types[t]? <;> exact h

theorem run_type_table (ops : List Op) : ∀ {g : CodeGen} {k : TypeId} {p : ZigTypePtr},
    type_table_get g.type_table k = some p →
    type_table_get (run g ops).type_table k = some p := by
  induction ops with
  | nil => intro g k p h; exact h
  | cons op ops ih => intro g k p h; exact ih (step_type_table op h)

theorem run_tlds (ops : List Op) : ∀ {g : CodeGen} {d : AstNodePtr} {p : ZigTypePtr},
    tld_find g.tlds d = some p → tld_find (run g ops).tlds d = some p := by
  induction ops with
  | nil => intro g d p h; exact h
  | cons op ops ih => intro g d p h; exact ih (step_tlds op h)

/-! ## Main theorems about interning -/

/-- C9: interning of structural types is idempotent.  In any compilation (the
state reached from the empty one by any requests `ops`), the instance obtained
for a key `k` is obtained again for `k` after any further requests `ops'`, and
also for every key `k'` that `type_id_eql` finds equal to `k`; and no
two instances of the compilation were made from equal keys, so that instances
with equal structural key are the same instance. -/
theorem interning_idempotent (ops ops' : List Op) (k : TypeId) :
    (get_or_create (run (get_or_create (run CodeGen.init ops) k).2 ops') k).1 =
        (get_or_create (run CodeGen.init ops) k).1 ∧
    (∀ k' : TypeId, type_id_eql k k' = true →
      (get_or_create (run (get_or_create (run CodeGen.init ops) k).2 ops') k').1 =
        (get_or_create (run CodeGen.init ops) k).1) ∧
    (∀ (p q : ZigTypePtr) (t u : ZigType) (k1 k2 : TypeId),
      (run CodeGen.init ops).types[p]? = some t →
      (run CodeGen.init ops).types[q]? = some u →
      key_of t = some k1 → key_of u = some k2 → type_id_eql k1 k2 = true → p = q) := by
  have hfound := run_type_table ops' (get_or_create_found (run CodeGen.init ops) k)
  refine ⟨get_or_create_of_found hfound, ?_, ?_⟩
  · intro k' hk
    rw [(type_id_eql_iff k k').1 hk] at hfound ⊢
    exact get_or_create_of_found hfound
  · intro p q t u k1 k2 hp hq ht hu hk
    have hinv : Inv (run CodeGen.init ops) := Inv_run ops Inv_init
    have h1 := hinv.table_complete p t k1 hp ht
    have h2 := hinv.table_complete q u k2 hq hu
    rw [(type_id_eql_iff k1 k2).1 hk, h2] at h1
    exact (Option.some.inj h1).symm

theorem interning_idempotent_witness :
    (get_or_create (run (get_or_create (run CodeGen.init
        [Op.intern (TypeId.integer false 8)]) (TypeId.integer true 32)).2
        [Op.intern (TypeId.array 1 4), Op.resolve 1 ResolveStatus.ResolveStatusSizeKnown])
        (TypeId.integer true 32)).1 = 1 ∧
    type_id_eql (TypeId.integer true 32) (TypeId.integer true 32) = true ∧
    (get_or_create (run (get_or_create (run CodeGen.init
        [Op.intern (TypeId.integer false 8)]) (TypeId.integer true 32)).2
        [Op.intern (TypeId.array 1 4), Op.resolve 1 ResolveStatus.ResolveStatusSizeKnown])
        (TypeId.integer true 32)).1 =
      (get_or_create (run CodeGen.init [Op.intern (TypeId.integer false 8)])
        (TypeId.integer true 32)).1 ∧
    (0 : ZigTypePtr) = 0 :=
  ⟨((interning_idempotent [Op.intern (TypeId.integer false 8)]
      [Op.intern (TypeId.array 1 4), Op.resolve 1 ResolveStatus.ResolveStatusSizeKnown]
      (TypeId.integer true 32)).1).trans (by decide),
    by decide,
    (interning_idempotent [Op.intern (TypeId.integer false 8)]
      [Op.intern (TypeId.array 1 4), Op.resolve 1 ResolveStatus.ResolveStatusSizeKnown]
      (TypeId.integer true 32)).2.1 (TypeId.integer true 32) (by decide),
    (interning_idempotent [Op.intern (TypeId.integer false 8)]
      [Op.intern (TypeId.array 1 4), Op.resolve 1 ResolveStatus.ResolveStatusSizeKnown]
      (TypeId.integer true 32)).2.2 0 0
      ⟨ZigTypeId.ZigTypeIdInt, ZigTypeData.keyed (TypeId.integer false 8)⟩
      ⟨ZigTypeId.ZigTypeIdInt, ZigTypeData.keyed (TypeId.integer false 8)⟩
      (TypeId.integer false 8) (TypeId.integer false 8)
      (by decide) (by decide) (by decide) (by decide) (by decide)⟩

/-- C10: composite types are interned by declaration identity.  In any
compilation, the instance `p` obtained for the declaration node `d` is
obtained again for `d` after the layout of `p` has been resolved with any
outcome `st` (the resolution updates the instance at `p` in place), and after
any further requests `ops'`; and a declaration node `d2` other than `d` never
gets the instance `p`, whatever the text `decl2` of its declaration, the text
`decl` of `d` included. -/
theorem container_interned_by_declaration (ops ops' : List Op) (d : AstNodePtr)
    (decl : AstNodeContainerDecl) (st : ResolveStatus) :
    (get_container_type
        (resolve_layout (get_container_type (run CodeGen.init ops) d decl).2
          (get_container_type (run CodeGen.init ops) d decl).1 st) d decl).1 =
      (get_container_type (run CodeGen.init ops) d decl).1 ∧
    (resolve_layout (get_container_type (run CodeGen.init ops) d decl).2
        (get_container_type (run CodeGen.init ops) d decl).1 st).types[
          (get_container_type (run CodeGen.init ops) d decl).1]? =
      ((get_container_type (run CodeGen.init ops) d decl).2.types[
          (get_container_type (run CodeGen.init ops) d decl).1]?).map (set_resolved st) ∧
    (get_container_type (run (get_container_type (run CodeGen.init ops) d decl).2 ops')
        d decl).1 =
      (get_container_type (run CodeGen.init ops) d decl).1 ∧
    (∀ (d2 : AstNodePtr) (decl2 : AstNodeContainerDecl), d2 ≠ d →
      (get_container_type (run (get_container_type (run CodeGen.init ops) d decl).2 ops')
        d2 decl2).1 ≠
      (get_container_type (run CodeGen.init ops) d decl).1) := by
  have hinv0 : Inv (run CodeGen.init ops) := Inv_run ops Inv_init
  have hinv1 := Inv_get_container_type hinv0 d decl
  have hfound1 := get_container_type_found (run CodeGen.init ops) d decl
  have hfound := run_tlds ops' hfound1
  refine ⟨?_, ?_, get_container_type_of_found hfound, ?_⟩
  · exact get_container_type_of_found
      (step_tlds (Op.resolve (get_container_type (run CodeGen.init ops) d decl).1 st) hfound1)
  · rw [getElem?_resolve_layout]
    simp
  · intro d2 decl2 hne heq
    have hinv2 := Inv_get_container_type (Inv_run ops' hinv1) d2 decl2
    have hd2 := get_container_type_found
      (run (get_container_type (run CodeGen.init ops) d decl).2 ops') d2 decl2
    have hd := step_tlds (Op.container d2 decl2) hfound
    simp only [step] at hd
    rw [heq] at hd2
    obtain ⟨t, ht, hdt⟩ := hinv2.tld_sound d _ hd
    obtain ⟨t2, ht2, hdt2⟩ := hinv2.tld_sound d2 _ hd2
    rw [ht] at ht2
    cases ht2
    rw [hdt] at hdt2
    exact hne (Option.some.inj hdt2).symm

theorem container_interned_by_declaration_witness :
    (8 : AstNodePtr) ≠ 7 ∧
    (get_container_type (run (get_container_type (run CodeGen.init
        [Op.intern (TypeId.integer false 8)]) 7
        ⟨ContainerKind.ContainerKindStruct, [], [], ContainerLayout.ContainerLayoutAuto⟩).2
        [Op.resolve 1 ResolveStatus.ResolveStatusSizeKnown]) 8
        ⟨ContainerKind.ContainerKindStruct, [], [], ContainerLayout.ContainerLayoutAuto⟩).1 ≠
      (get_container_type (run CodeGen.init [Op.intern (TypeId.integer false 8)]) 7
        ⟨ContainerKind.ContainerKindStruct, [], [], ContainerLayout.ContainerLayoutAuto⟩).1 :=
  ⟨by decide,
    (container_interned_by_declaration [Op.intern (TypeId.integer false 8)]
      [Op.resolve 1 ResolveStatus.ResolveStatusSizeKnown] 7
      ⟨ContainerKind.ContainerKindStruct, [], [], ContainerLayout.ContainerLayoutAuto⟩
      ResolveStatus.ResolveStatusSizeKnown).2.2.2 8
      ⟨ContainerKind.ContainerKindStruct, [], [], ContainerLayout.ContainerLayoutAuto⟩
      (by decide)⟩

/-! ## Constant folding of integer arithmetic -/

theorem wrap_to_bits_fits (ty : ZigTypeInt) (x : Int) : fits_in_bits ty (wrap_to_bits ty x) := by
  unfold fits_in_bits wrap_to_bits
  by_cases h0 : ty.bit_count = 0
  · simp [h0]
  · simp only [h0, if_false]
    have hpos : (0 : Int) < (2 : Int) ^ ty.bit_count := by positivity
    have hne : ((2 : Int) ^ ty.bit_count) ≠ 0 := ne_of_gt hpos
    by_cases hs : ty.is_signed = true
    · simp only [hs, if_true]
      have hdbl : (2 : Int) ^ ty.bit_count = 2 * (2 : Int) ^ (ty.bit_count - 1) := by
        obtain ⟨n, hn⟩ : ∃ n, ty.bit_count = n + 1 := ⟨ty.bit_count - 1, by omega⟩
        rw [hn, Nat.add_sub_cancel, pow_succ]
        ring
      have h1 := Int.emod_nonneg (x + (2 : Int) ^ (ty.bit_count - 1)) hne
      have h2 := Int.emod_lt_of_pos (x + (2 : Int) ^ (ty.bit_count - 1)) hpos
      constructor <;> omega
    · simp only [hs, if_false]
      exact ⟨Int.emod_nonneg x hne, Int.emod_lt_of_pos x hpos⟩

theorem wrap_to_bits_emod (ty : ZigTypeInt) (x : Int) :
    wrap_to_bits ty x % (2 : Int) ^ ty.bit_count = x % (2 : Int) ^ ty.bit_count := by
  unfold wrap_to_bits
  by_cases h0 : ty.bit_count = 0
  · simp [h0]
  · simp only [h0, if_false]
    by_cases hs : ty.is_signed = true
    · simp only [hs, if_true]
      rw [Int.sub_emod, Int.emod_emod_of_dvd _ (dvd_refl _), ← Int.sub_emod]
      simp
    · simp only [hs, if_false]
      exact Int.emod_emod_of_dvd _ (dvd_refl _)

/-- C11: constant folding never silently wraps.  For static integer operands
`a`, `b`, a destination integer type `ty` and a non-wrapping operator `op`
among `+`, `-`, `*`: when the exact result does not fit `ty`, folding `op`
fails with the overflow diagnostic (and when it fits, folding gives the exact
result), whereas folding the corresponding wrapping operator on the same
operands succeeds with a value of `ty` that equals the exact result modulo
`2^bit_count`. -/
theorem fold_never_wraps (ty : ZigTypeInt) (op : IrBinOp) (a b : Int)
    (hop : is_checked_arith op) :
    (¬ fits_in_bits ty (exact_bin_op op a b) →
      fold_int_bin_op ty op a b = FoldResult.overflow_error) ∧
    (fits_in_bits ty (exact_bin_op op a b) →
      fold_int_bin_op ty op a b = FoldResult.value (exact_bin_op op a b)) ∧
    (∃ r : Int, fold_int_bin_op ty (wrapping_variant op) a b = FoldResult.value r ∧
      fits_in_bits ty r ∧
      r % (2 : Int) ^ ty.bit_count = exact_bin_op op a b % (2 : Int) ^ ty.bit_count) := by
  rcases hop with rfl | rfl | rfl
  · refine ⟨fun h => by simp [fold_int_bin_op, exact_bin_op] at h ⊢; exact h,
      fun h => by simp [fold_int_bin_op, exact_bin_op] at h ⊢; exact h,
      wrap_to_bits ty (a + b), rfl, wrap_to_bits_fits _ _, wrap_to_bits_emod _ _⟩
  · refine ⟨fun h => by simp [fold_int_bin_op, exact_bin_op] at h ⊢; exact h,
      fun h => by simp [fold_int_bin_op, exact_bin_op] at h ⊢; exact h,
      wrap_to_bits ty (a - b), rfl, wrap_to_bits_fits _ _, wrap_to_bits_emod _ _⟩
  · refine ⟨fun h => by simp [fold_int_bin_op, exact_bin_op] at h ⊢; exact h,
      fun h => by simp [fold_int_bin_op, exact_bin_op] at h ⊢; exact h,
      wrap_to_bits ty (a * b), rfl, wrap_to_bits_fits _ _, wrap_to_bits_emod _ _⟩

theorem fold_never_wraps_witness :
    is_checked_arith IrBinOp.IrBinOpAdd ∧
    ¬ fits_in_bits ⟨8, false⟩ (exact_bin_op IrBinOp.IrBinOpAdd 200 100) ∧
    fold_int_bin_op ⟨8, false⟩ IrBinOp.IrBinOpAdd 200 100 = FoldResult.overflow_error ∧
    fits_in_bits ⟨8, false⟩ (exact_bin_op IrBinOp.IrBinOpAdd 20 100) ∧
    fold_int_bin_op ⟨8, false⟩ IrBinOp.IrBinOpAdd 20 100 = FoldResult.value 120 ∧
    fold_int_bin_op ⟨8, false⟩ IrBinOp.IrBinOpAddWrap 200 100 = FoldResult.value 44 :=
  ⟨by decide, by decide,
    (fold_never_wraps ⟨8, false⟩ IrBinOp.IrBinOpAdd 200 100 (by decide)).1 (by decide),
    by decide,
    (fold_never_wraps ⟨8, false⟩ IrBinOp.IrBinOpAdd 20 100 (by decide)).2.1 (by decide),
    by decide⟩

/-! ## Layout resolution of structs -/

theorem getElem?_enter_struct (st : LayoutState) (t : Nat) (s : ZigTypeStruct)
    (u : Nat) (h : st.structs[t]? = some s) :
    (enter_struct st t s).structs[u]? =
      if t = u then some { s with resolve_loop_flag := true } else st.structs[u]? := by
  have hlt : t < st.structs.length := by
    by_contra hn
    rw [List.getElem?_eq_none (by omega)] at h
    cases h
  simp only [enter_struct, List.getElem?_set]
  by_cases e : t = u
  · subst e
    simp [hlt]
  · simp [e]

theorem getElem?_loop_detected (st : LayoutState) (t : Nat) (s : ZigTypeStruct)
    (u : Nat) (h : st.structs[t]? = some s) :
    (loop_detected st t s).structs[u]? =
      if t = u then
        some { s with resolve_status := .ResolveStatusInvalid, reported_infinite_err := true }
      else st.structs[u]? := by
  have hlt : t < st.structs.length := by
    by_contra hn
    rw [List.getElem?_eq_none (by omega)] at h
    cases h
  simp only [loop_detected, List.getElem?_set]
  by_cases e : t = u
  · subst e
    simp [hlt]
  · simp [e]

theorem getElem?_leave_struct (st : LayoutState) (t : Nat) (ok : Bool) (u : Nat) :
    (leave_struct st t ok).structs[u]? =
      if t = u then
        (st.structs[t]?).map (fun s =>
          { s with
            resolve_loop_flag := false
            resolve_status :=
              if ok then ResolveStatus.ResolveStatusSizeKnown
              else ResolveStatus.ResolveStatusInvalid })
      else st.structs[u]? := by
  unfold leave_struct
  cases h : st.structs[t]? with
  | none =>
    by_cases e : t = u
    · subst e
      simp [h]
    · simp [e]
  | some s =>
    have hlt : t < st.structs.length := by
      by_contra hn
      rw [List.getElem?_eq_none (by omega)] at h
      cases h
    simp only [List.getElem?_set]
    by_cases e : t = u
    · subst e
      simp [hlt]
    · simp [e]

theorem errors_leave_struct (st : LayoutState) (t : ZigTypePtr) (ok : Bool) :
    (leave_struct st t ok).errors = st.errors := by
  unfold leave_struct
  cases st.structs[t]? <;> rfl

theorem length_leave_struct (st : LayoutState) (t : ZigTypePtr) (ok : Bool) :
    (leave_struct st t ok).structs.length = st.structs.length := by
  unfold leave_struct
  cases st.structs[t]? <;> simp

/-- The ways a call with fuel left can return. -/
theorem resolve_struct_type_cases {ft : ZigTypePtr → List ZigTypePtr} {fuel : Nat}
    {st : LayoutState} {t : ZigTypePtr} {r : Bool} {st1 : LayoutState}
    (h : resolve_struct_type ft (fuel + 1) st t = some (r, st1)) :
    (st.structs[t]? = none ∧ r = true ∧ st1 = st) ∨
    ∃ s, st.structs[t]? = some s ∧
      ((s.resolve_status = .ResolveStatusInvalid ∧ r = false ∧ st1 = st) ∨
       (s.resolve_status ≠ .ResolveStatusInvalid ∧ size_known s ∧ r = true ∧ st1 = st) ∨
       (s.resolve_status ≠ .ResolveStatusInvalid ∧ ¬ size_known s ∧
          s.resolve_loop_flag = true ∧ r = false ∧ st1 = loop_detected st t s) ∨
       (s.resolve_status ≠ .ResolveStatusInvalid ∧ ¬ size_known s ∧
          s.resolve_loop_flag = false ∧
          ∃ st2, resolve_fields (resolve_struct_type ft fuel) (enter_struct st t s) (ft t) =
              some (r, st2) ∧ st1 = leave_struct st2 t r)) := by
  rw [resolve_struct_type] at h
  cases hs : st.structs[t]? with
  | none =>
    rw [hs] at h
    simp only [Option.some.injEq, Prod.mk.injEq] at h
    exact Or.inl ⟨rfl, h.1.symm, h.2.symm⟩
  | some s =>
    rw [hs] at h
    refine Or.inr ⟨s, rfl, ?_⟩
    simp only at h
    by_cases h1 : s.resolve_status = .ResolveStatusInvalid
    · rw [if_pos h1] at h
      simp only [Option.some.injEq, Prod.mk.injEq] at h
      exact Or.inl ⟨h1, h.1.symm, h.2.symm⟩
    · rw [if_neg h1] at h
      by_cases h2 : size_known s
      · rw [if_pos h2] at h
        simp only [Option.some.injEq, Prod.mk.injEq] at h
        exact Or.inr (Or.inl ⟨h1, h2, h.1.symm, h.2.symm⟩)
      · rw [if_neg h2] at h
        by_cases h3 : s.resolve_loop_flag = true
        · rw [if_pos h3] at h
          simp only [Option.some.injEq, Prod.mk.injEq] at h
          exact Or.inr (Or.inr (Or.inl ⟨h1, h2, h3, h.1.symm, h.2.symm⟩))
        · rw [if_neg h3] at h
          have h3f : s.resolve_loop_flag = false := by
            cases hf : s.resolve_loop_flag
            · rfl
            · exact absurd hf h3
          cases hf : resolve_fields (resolve_struct_type ft fuel) (enter_struct st t s) (ft t) with
          | none =>
            rw [hf] at h
            cases h
          | some p =>
            obtain ⟨ok, st2⟩ := p
            rw [hf] at h
            simp only [Option.some.injEq, Prod.mk.injEq] at h
            obtain ⟨rfl, rfl⟩ := h
            exact Or.inr (Or.inr (Or.inr ⟨h1, h2, h3f, st2, rfl, rfl⟩))

theorem Frame_refl (st : LayoutState) : Frame st st :=
  ⟨fun _ h => h, fun _ s h => ⟨s, h, rfl, fun hk => hk⟩⟩

theorem Frame_trans {a b c : LayoutState} (h1 : Frame a b) (h2 : Frame b c) : Frame a c := by
  refine ⟨fun u h => h2.none_stays u (h1.none_stays u h), ?_⟩
  intro u s hs
  obtain ⟨s1, hs1, hf1, hk1⟩ := h1.some_stays u s hs
  obtain ⟨s2, hs2, hf2, hk2⟩ := h2.some_stays u s1 hs1
  exact ⟨s2, hs2, hf2.trans hf1, fun hk => hk2 (hk1 hk)⟩

theorem Frame_length {a b : LayoutState} (h : Frame a b) :
    b.structs.length = a.structs.length := by
  apply Nat.le_antisymm
  · by_contra hn
    have h1 := h.none_stays a.structs.length (List.getElem?_eq_none (Nat.le_refl _))
    rw [List.getElem?_eq_none_iff] at h1
    omega
  · by_contra hn
    have hlt : b.structs.length < a.structs.length := by omega
    obtain ⟨s1, hs1, _⟩ := h.some_stays b.structs.length _ (List.getElem?_eq_getElem hlt)
    rw [List.getElem?_eq_none (Nat.le_refl _)] at hs1
    cases hs1

theorem Frame_flag_list {a b : LayoutState} (h : Frame a b) : flag_list b = flag_list a := by
  apply List.ext_getElem?
  intro u
  simp only [flag_list, List.getElem?_map]
  cases hs : a.structs[u]? with
  | none => rw [h.none_stays u hs]
  | some s =>
    obtain ⟨s1, hs1, hf, _⟩ := h.some_stays u s hs
    rw [hs1]
    simp [hf]

theorem Contains_lt {ft : ZigTypePtr → List ZigTypePtr} {n : Nat} {v u : ZigTypePtr}
    (h : Contains ft n v u) : v < n := by
  cases h with
  | direct hv _ => exact hv
  | trans hv _ _ => exact hv

/-- A struct that is being resolved and whose fields all have a known size
does not contain itself. -/
theorem no_cycle_through_open {ft : ZigTypePtr → List ZigTypePtr} {st : LayoutState}
    {t : Nat} {s : ZigTypeStruct} (hinv : LInv ft st) (ht : st.structs[t]? = some s)
    (hflag : s.resolve_loop_flag = true)
    (hfields : ∀ f ∈ ft t, ∀ sf : ZigTypeStruct, st.structs[f]? = some sf → size_known sf) :
    ¬ Contains ft st.structs.length t t := by
  have step : ∀ v u : Nat, u ∈ ft v →
      (v = t ∨ ∃ sv : ZigTypeStruct, st.structs[v]? = some sv ∧ size_known sv) →
      ∀ su : ZigTypeStruct, st.structs[u]? = some su → size_known su := by
    intro v u hu good su hsu
    rcases good with rfl | ⟨sv, hsv, hk⟩
    · exact hfields u hu su hsu
    · exact hinv.closed v sv hsv hk u hu su hsu
  have key : ∀ v u : Nat, Contains ft st.structs.length v u →
      (v = t ∨ ∃ sv : ZigTypeStruct, st.structs[v]? = some sv ∧ size_known sv) →
      ∀ su : ZigTypeStruct, st.structs[u]? = some su → size_known su := by
    intro v u hc
    induction hc with
    | direct hv hu => exact step _ _ hu
    | trans hv hw hc ih =>
      intro good
      have hwlt := Contains_lt hc
      exact ih (Or.inr ⟨_, List.getElem?_eq_getElem hwlt,
        step _ _ hw good _ (List.getElem?_eq_getElem hwlt)⟩)
  intro hc
  exact hinv.flag_open t s ht hflag (key t t hc (Or.inl rfl) s ht)

/-- Replacing an instance without known size by one without known size keeps
the invariant. -/
theorem LInv_set_open {ft : ZigTypePtr → List ZigTypePtr} {st st1 : LayoutState} {t : Nat}
    {s s1 : ZigTypeStruct} (hinv : LInv ft st) (ht : st.structs[t]? = some s)
    (hs : ¬ size_known s) (hs1 : ¬ size_known s1)
    (hget : ∀ u : Nat, st1.structs[u]? = if t = u then some s1 else st.structs[u]?)
    (hlen : st1.structs.length = st.structs.length) : LInv ft st1 := by
  have hold : ∀ (u : Nat) (su : ZigTypeStruct), st1.structs[u]? = some su → size_known su →
      st.structs[u]? = some su := by
    intro u su hu hk
    rw [hget] at hu
    by_cases e : t = u
    · rw [if_pos e, Option.some.injEq] at hu
      subst hu
      exact absurd hk hs1
    · rwa [if_neg e] at hu
  refine ⟨?_, ?_, ?_⟩
  · intro u su hu hk v hv sv hsv
    have hu0 := hold u su hu hk
    rw [hget] at hsv
    by_cases e : t = v
    · subst e
      exact absurd (hinv.closed u su hu0 hk t hv s ht) hs
    · rw [if_neg e] at hsv
      exact hinv.closed u su hu0 hk v hv sv hsv
  · intro u su hu hf hk
    exact hinv.flag_open u su (hold u su hu hk) hf hk
  · intro u su hu hk
    rw [hlen]
    exact hinv.acyclic u su (hold u su hu hk) hk

/-- Leaving a struct whose fields all have a known size keeps the invariant. -/
theorem LInv_set_done {ft : ZigTypePtr → List ZigTypePtr} {st st1 : LayoutState} {t : Nat}
    {s s1 : ZigTypeStruct} (hinv : LInv ft st) (ht : st.structs[t]? = some s)
    (hflag : s.resolve_loop_flag = true) (hflag1 : s1.resolve_loop_flag = false)
    (hk1 : size_known s1)
    (hfields : ∀ f ∈ ft t, ∀ sf : ZigTypeStruct, st.structs[f]? = some sf → size_known sf)
    (hget : ∀ u : Nat, st1.structs[u]? = if t = u then some s1 else st.structs[u]?)
    (hlen : st1.structs.length = st.structs.length) : LInv ft st1 := by
  refine ⟨?_, ?_, ?_⟩
  · intro u su hu hk v hv sv hsv
    rw [hget] at hsv
    by_cases ev : t = v
    · rw [if_pos ev, Option.some.injEq] at hsv
      subst hsv
      exact hk1
    · rw [if_neg ev] at hsv
      rw [hget] at hu
      by_cases eu : t = u
      · subst eu
        exact hfields v hv sv hsv
      · rw [if_neg eu] at hu
        exact hinv.closed u su hu hk v hv sv hsv
  · intro u su hu hf hk
    rw [hget] at hu
    by_cases eu : t = u
    · rw [if_pos eu, Option.some.injEq] at hu
      subst hu
      rw [hflag1] at hf
      cases hf
    · rw [if_neg eu] at hu
      exact hinv.flag_open u su hu hf hk
  · intro u su hu hk
    rw [hlen]
    rw [hget] at hu
    by_cases eu : t = u
    · subst eu
      exact no_cycle_through_open hinv ht hflag hfields
    · rw [if_neg eu] at hu
      exact hinv.acyclic u su hu hk

theorem resolve_fields_good {ft : ZigTypePtr → List ZigTypePtr}
    {resolve : LayoutState → ZigTypePtr → Option (Bool × LayoutState)}
    (hres : GoodResolver ft resolve) :
    ∀ (fs : List ZigTypePtr) (st : LayoutState) (r : Bool) (st1 : LayoutState),
      resolve_fields resolve st fs = some (r, st1) →
      Frame st st1 ∧
      (LInv ft st →
        LInv ft st1 ∧
        (r = true →
          (∀ f ∈ fs, ∀ sf : ZigTypeStruct, st1.structs[f]? = some sf → size_known sf) ∧
          (Clean st → Clean st1) ∧ st1.errors = st.errors) ∧
        (r = false → (Clean st → st1.errors.length = 1))) := by
  intro fs
  induction fs with
  | nil =>
    intro st r st1 h
    simp only [resolve_fields, Option.some.injEq, Prod.mk.injEq] at h
    obtain ⟨rfl, rfl⟩ := h
    refine ⟨Frame_refl _, fun hinv => ⟨hinv, fun _ => ⟨?_, fun hc => hc, rfl⟩, fun hr => ?_⟩⟩
    · intro f hf
      cases hf
    · cases hr
  | cons f fs ih =>
    intro st r st1 h
    rw [resolve_fields] at h
    cases hf : resolve st f with
    | none =>
      rw [hf] at h
      cases h
    | some p =>
      obtain ⟨b, sta⟩ := p
      rw [hf] at h
      obtain ⟨hfr, hgood⟩ := hres st f b sta hf
      cases b with
      | false =>
        simp only [Option.some.injEq, Prod.mk.injEq] at h
        obtain ⟨rfl, rfl⟩ := h
        refine ⟨hfr, fun hinv => ?_⟩
        obtain ⟨hinv1, _, hfalse⟩ := hgood hinv
        refine ⟨hinv1, fun hr => ?_, fun _ => (hfalse rfl).2⟩
        cases hr
      | true =>
        simp only at h
        obtain ⟨hfr2, hgood2⟩ := ih sta r st1 h
        refine ⟨Frame_trans hfr hfr2, fun hinv => ?_⟩
        obtain ⟨hinv1, htrue, _⟩ := hgood hinv
        obtain ⟨hk, hclean, herr⟩ := htrue rfl
        obtain ⟨hinv2, htrue2, hfalse2⟩ := hgood2 hinv1
        refine ⟨hinv2, fun hr => ?_, fun hr hc => hfalse2 hr (hclean hc)⟩
        obtain ⟨hk2, hclean2, herr2⟩ := htrue2 hr
        refine ⟨?_, fun hc => hclean2 (hclean hc), herr2.trans herr⟩
        intro g hg sg hsg
        rcases List.mem_cons.1 hg with rfl | hg
        · cases hsa : sta.structs[g]? with
          | none =>
            rw [hfr2.none_stays g hsa] at hsg
            cases hsg
          | some sa =>
            obtain ⟨s2, hs2, _, hk3⟩ := hfr2.some_stays g sa hsa
            rw [hs2, Option.some.injEq] at hsg
            subst hsg
            exact hk3 (hk sa hsa)
        · exact hk2 g hg sg hsg

theorem not_size_known_invalid {s : ZigTypeStruct}
    (h : s.resolve_status = .ResolveStatusInvalid) : ¬ size_known s := by
  unfold size_known
  rw [h]
  decide

theorem size_known_of_eq {s : ZigTypeStruct}
    (h : s.resolve_status = .ResolveStatusSizeKnown) : size_known s := by
  unfold size_known
  rw [h]

theorem Clean_enter_struct {st : LayoutState} {t : Nat} {s : ZigTypeStruct}
    (hc : Clean st) (ht : st.structs[t]? = some s) : Clean (enter_struct st t s) := by
  refine ⟨hc.1, ?_⟩
  intro u su hu
  rw [getElem?_enter_struct st t s u ht] at hu
  by_cases e : t = u
  · rw [if_pos e, Option.some.injEq] at hu
    subst hu
    exact hc.2 t s ht
  · rw [if_neg e] at hu
    exact hc.2 u su hu

theorem resolve_struct_type_good (ft : ZigTypePtr → List ZigTypePtr) :
    ∀ fuel : Nat, GoodResolver ft (resolve_struct_type ft fuel) := by
  intro fuel
  induction fuel with
  | zero =>
    intro st t r st1 h
    simp [resolve_struct_type] at h
  | succ fuel ih =>
    intro st t r st1 h
    rcases resolve_struct_type_cases h with ⟨hn, rfl, rfl⟩ | ⟨s, hs, c⟩
    · refine ⟨Frame_refl _, fun hinv => ⟨hinv, fun _ => ⟨?_, fun hc => hc, rfl⟩, fun hr => ?_⟩⟩
      · intro s1 hs1
        rw [hn] at hs1
        cases hs1
      · cases hr
    · rcases c with ⟨hinvl, rfl, rfl⟩ | ⟨_, hk, rfl, rfl⟩ | ⟨hni, hnk, hflag, rfl, rfl⟩ |
        ⟨hni, hnk, hflag, st2, hfields, rfl⟩
      · -- the struct is already invalid
        refine ⟨Frame_refl _, fun hinv => ⟨hinv, fun hr => ?_, fun _ => ⟨?_, ?_⟩⟩⟩
        · cases hr
        · intro s1 hs1
          rw [hs, Option.some.injEq] at hs1
          subst hs1
          exact hinvl
        · intro hc
          exact absurd hinvl (hc.2 t s hs).1
      · -- the size is already known
        refine ⟨Frame_refl _, fun hinv => ⟨hinv, fun _ => ⟨?_, fun hc => hc, rfl⟩, fun hr => ?_⟩⟩
        · intro s1 hs1
          rw [hs, Option.some.injEq] at hs1
          subst hs1
          exact hk
        · cases hr
      · -- the loop flag is set
        have hget := getElem?_loop_detected st t s
        have hnew : ¬ size_known
            { s with resolve_status := ResolveStatus.ResolveStatusInvalid,
                     reported_infinite_err := true } := not_size_known_invalid rfl
        refine ⟨⟨?_, ?_⟩, fun hinv => ⟨?_, fun hr => ?_, fun _ => ⟨?_, ?_⟩⟩⟩
        · intro u hu
          rw [hget u hs, if_neg]
          · exact hu
          · rintro rfl
            rw [hs] at hu
            cases hu
        · intro u su hu
          rw [hget u hs]
          by_cases e : t = u
          · subst e
            rw [hs, Option.some.injEq] at hu
            subst hu
            exact ⟨{ s with resolve_status := ResolveStatus.ResolveStatusInvalid,
                            reported_infinite_err := true },
              by rw [if_pos rfl], rfl, fun hk => absurd hk hnk⟩
          · exact ⟨su, by rw [if_neg e]; exact hu, rfl, fun hk => hk⟩
        · exact LInv_set_open hinv hs hnk hnew (fun u => hget u hs) (by simp [loop_detected])
        · cases hr
        · intro s1 hs1
          rw [hget t hs, if_pos rfl, Option.some.injEq] at hs1
          subst hs1
          rfl
        · intro hc
          have hrep := (hc.2 t s hs).2
          simp [loop_detected, hrep, hc.1]
      · -- the struct is entered
        have hse : (enter_struct st t s).structs[t]? =
            some { s with resolve_loop_flag := true } := by
          rw [getElem?_enter_struct st t s t hs, if_pos rfl]
        obtain ⟨hfr, hgood⟩ := resolve_fields_good ih (ft t) _ r st2 hfields
        obtain ⟨s2, hs2, hflag2, _⟩ := hfr.some_stays t _ hse
        have hflag2t : s2.resolve_loop_flag = true := hflag2
        have hget : ∀ u : Nat, (leave_struct st2 t r).structs[u]? =
            if t = u then
              some { s2 with
                resolve_loop_flag := false
                resolve_status :=
                  if r then ResolveStatus.ResolveStatusSizeKnown
                  else ResolveStatus.ResolveStatusInvalid }
            else st2.structs[u]? := by
          intro u
          rw [getElem?_leave_struct, hs2]
          rfl
        refine ⟨⟨?_, ?_⟩, fun hinv => ?_⟩
        · intro u hu
          have hne : ¬ t = u := by
            rintro rfl
            rw [hs] at hu
            cases hu
          rw [hget u, if_neg hne]
          apply hfr.none_stays
          rw [getElem?_enter_struct st t s u hs, if_neg hne]
          exact hu
        · intro u su hu
          by_cases e : t = u
          · subst e
            rw [hs, Option.some.injEq] at hu
            subst hu
            exact ⟨_, by rw [hget t, if_pos rfl], hflag.symm, fun hk => absurd hk hnk⟩
          · have hue : (enter_struct st t s).structs[u]? = some su := by
              rw [getElem?_enter_struct st t s u hs, if_neg e]
              exact hu
            obtain ⟨su2, hsu2, hf, hk⟩ := hfr.some_stays u su hue
            exact ⟨su2, by rw [hget u, if_neg e]; exact hsu2, hf, hk⟩
        · have hnke : ¬ size_known ({ s with resolve_loop_flag := true } : ZigTypeStruct) := hnk
          have hinve : LInv ft (enter_struct st t s) :=
            LInv_set_open hinv hs hnk hnke
              (fun u => getElem?_enter_struct st t s u hs) (by simp [enter_struct])
          obtain ⟨hinv2, htrue, hfalse⟩ := hgood hinve
          have hopen2 : ¬ size_known s2 := hinv2.flag_open t s2 hs2 hflag2t
          refine ⟨?_, fun hr => ?_, fun hr => ?_⟩
          · cases r with
            | true =>
              exact LInv_set_done hinv2 hs2 hflag2t rfl (size_known_of_eq rfl) (htrue rfl).1
                hget (length_leave_struct st2 t true)
            | false =>
              exact LInv_set_open hinv2 hs2 hopen2 (not_size_known_invalid rfl)
                hget (length_leave_struct st2 t false)
          · subst hr
            obtain ⟨_, hclean, herr⟩ := htrue rfl
            refine ⟨?_, ?_, ?_⟩
            · intro s1 hs1
              rw [hget t, if_pos rfl, Option.some.injEq] at hs1
              subst hs1
              exact size_known_of_eq rfl
            · intro hc
              have hc2 := hclean (Clean_enter_struct hc hs)
              refine ⟨by rw [errors_leave_struct]; exact hc2.1, ?_⟩
              intro u su hu
              rw [hget u] at hu
              by_cases e : t = u
              · rw [if_pos e, Option.some.injEq] at hu
                subst hu
                exact ⟨by simp, (hc2.2 t s2 hs2).2⟩
              · rw [if_neg e] at hu
                exact hc2.2 u su hu
            · rw [errors_leave_struct, herr]
              rfl
          · subst hr
            refine ⟨?_, ?_⟩
            · intro s1 hs1
              rw [hget t, if_pos rfl, Option.some.injEq] at hs1
              subst hs1
              rfl
            · intro hc
              rw [errors_leave_struct]
              exact hfalse rfl (Clean_enter_struct hc hs)

theorem count_false_set_true (l : List Bool) (t : Nat) (h : l[t]? = some false) :
    (l.set t true).count false + 1 = l.count false := by
  induction l generalizing t with
  | nil => simp at h
  | cons x l ih =>
    cases t with
    | zero =>
      simp only [List.getElem?_cons_zero, Option.some.injEq] at h
      subst h
      simp [List.count_cons]
    | succ t =>
      simp only [List.getElem?_cons_succ] at h
      have := ih t h
      simp only [List.set_cons_succ, List.count_cons]
      omega

theorem resolve_fields_total {ft : ZigTypePtr → List ZigTypePtr}
    {resolve : LayoutState → ZigTypePtr → Option (Bool × LayoutState)} {k : Nat}
    (hgood : GoodResolver ft resolve)
    (htot : ∀ (st : LayoutState) (t : ZigTypePtr), (flag_list st).count false < k →
      ∃ r st1, resolve st t = some (r, st1)) :
    ∀ (fs : List ZigTypePtr) (st : LayoutState), (flag_list st).count false < k →
      ∃ r st1, resolve_fields resolve st fs = some (r, st1) := by
  intro fs
  induction fs with
  | nil => intro st _; exact ⟨true, st, rfl⟩
  | cons f fs ih =>
    intro st h
    obtain ⟨b, sta, hf⟩ := htot st f h
    rw [resolve_fields, hf]
    cases b with
    | false => exact ⟨false, sta, rfl⟩
    | true =>
      have hfl := Frame_flag_list (hgood st f true sta hf).1
      exact ih sta (by rw [hfl]; exact h)

/-- A depth of one more than the number of structs whose loop flag is clear is
enough for the resolution to return. -/
theorem resolve_struct_type_total (ft : ZigTypePtr → List ZigTypePtr) :
    ∀ (fuel : Nat) (st : LayoutState) (t : ZigTypePtr), (flag_list st).count false < fuel →
      ∃ r st1, resolve_struct_type ft fuel st t = some (r, st1) := by
  intro fuel
  induction fuel with
  | zero => intro st t h; omega
  | succ fuel ih =>
    intro st t h
    rw [resolve_struct_type]
    cases hs : st.structs[t]? with
    | none => exact ⟨true, st, rfl⟩
    | some s =>
      simp only
      by_cases h1 : s.resolve_status = .ResolveStatusInvalid
      · rw [if_pos h1]; exact ⟨_, _, rfl⟩
      · rw [if_neg h1]
        by_cases h2 : size_known s
        · rw [if_pos h2]; exact ⟨_, _, rfl⟩
        · rw [if_neg h2]
          by_cases h3 : s.resolve_loop_flag = true
          · rw [if_pos h3]; exact ⟨_, _, rfl⟩
          · rw [if_neg h3]
            have h3f : s.resolve_loop_flag = false := by
              cases hf : s.resolve_loop_flag
              · rfl
              · exact absurd hf h3
            have hcount : (flag_list (enter_struct st t s)).count false + 1 =
                (flag_list st).count false := by
              have : flag_list (enter_struct st t s) = (flag_list st).set t true := by
                simp [flag_list, enter_struct]
              rw [this]
              apply count_false_set_true
              simp [flag_list, hs, h3f]
            obtain ⟨ok, st2, hf⟩ := resolve_fields_total (resolve_struct_type_good ft fuel) (ih)
              (ft t) (enter_struct st t s) (by omega)
            rw [hf]
            exact ⟨_, _, rfl⟩

theorem LInv_fresh (ft : ZigTypePtr → List ZigTypePtr) {st : LayoutState} (h : st.fresh) :
    LInv ft st ∧ Clean st := by
  have hall : ∀ (u : Nat) (s : ZigTypeStruct), st.structs[u]? = some s →
      s.resolve_status = .ResolveStatusUnstarted ∧ s.resolve_loop_flag = false ∧
        s.reported_infinite_err = false :=
    fun u s hu => h.2 s (List.mem_iff_getElem?.2 ⟨u, hu⟩)
  have hopen : ∀ (u : Nat) (s : ZigTypeStruct), st.structs[u]? = some s → ¬ size_known s := by
    intro u s hu hk
    unfold size_known at hk
    rw [(hall u s hu).1] at hk
    exact absurd hk (by decide)
  refine ⟨⟨?_, ?_, ?_⟩, h.1, ?_⟩
  · intro u s hu hk
    exact absurd hk (hopen u s hu)
  · intro u s hu _
    exact hopen u s hu
  · intro u s hu hk
    exact absurd hk (hopen u s hu)
  · intro u s hu
    refine ⟨?_, (hall u s hu).2.2⟩
    rw [(hall u s hu).1]
    decide

/-- C12: layout resolution of a cyclic struct terminates.  From a state in
which nothing is resolved or reported, for every struct `t` that contains
itself by value, directly or through other structs, the resolution of `t`
returns as soon as its depth bound exceeds the number of structs; it fails,
leaves `t` with status `ResolveStatusInvalid`, and has reported exactly one
diagnostic; asking again for `t` fails again and reports nothing more. -/
theorem cyclic_struct_resolution (ft : ZigTypePtr → List ZigTypePtr) (st : LayoutState)
    (t : ZigTypePtr) (fuel : Nat) (hfresh : st.fresh)
    (hcyc : Contains ft st.structs.length t t) (hfuel : st.structs.length < fuel) :
    ∃ st1 : LayoutState, resolve_struct_type ft fuel st t = some (false, st1) ∧
      (∃ s1 : ZigTypeStruct, st1.structs[t]? = some s1 ∧
        s1.resolve_status = ResolveStatus.ResolveStatusInvalid) ∧
      st1.errors.length = 1 ∧
      ∀ fuel2 : Nat, resolve_struct_type ft (fuel2 + 1) st1 t = some (false, st1) := by
  obtain ⟨hinv, hclean⟩ := LInv_fresh ft hfresh
  have hcount : (flag_list st).count false < fuel := by
    have h1 : (flag_list st).count false ≤ (flag_list st).length := List.count_le_length _ _
    simp only [flag_list, List.length_map] at h1
    simp only [flag_list]
    omega
  obtain ⟨r, st1, hres⟩ := resolve_struct_type_total ft fuel st t hcount
  obtain ⟨hfr, hgood⟩ := resolve_struct_type_good ft fuel st t r st1 hres
  obtain ⟨hinv1, htrue, hfalse⟩ := hgood hinv
  have hlen := Frame_length hfr
  have hlt : t < st1.structs.length := by
    rw [hlen]
    exact Contains_lt hcyc
  have ht1 : st1.structs[t]? = some (st1.structs.get ⟨t, hlt⟩) := List.getElem?_eq_getElem hlt
  cases r with
  | true =>
    have hk := (htrue rfl).1 _ ht1
    have := hinv1.acyclic t _ ht1 hk
    rw [hlen] at this
    exact absurd hcyc this
  | false =>
    have hstat := (hfalse rfl).1 _ ht1
    refine ⟨st1, hres, ⟨_, ht1, hstat⟩, (hfalse rfl).2 hclean, ?_⟩
    intro fuel2
    rw [resolve_struct_type, ht1]
    simp only
    rw [if_pos hstat]

theorem cyclic_struct_resolution_witness :
    LayoutState.fresh ⟨[unstarted_struct 10, unstarted_struct 11], []⟩ ∧
    Contains (fun t => if t = 0 then [1] else if t = 1 then [0] else [])
      (LayoutState.mk [unstarted_struct 10, unstarted_struct 11] []).structs.length 0 0 ∧
    (LayoutState.mk [unstarted_struct 10, unstarted_struct 11] []).structs.length < 3 ∧
    ∃ st1 : LayoutState,
      resolve_struct_type (fun t => if t = 0 then [1] else if t = 1 then [0] else []) 3
        ⟨[unstarted_struct 10, unstarted_struct 11], []⟩ 0 = some (false, st1) ∧
      (∃ s1 : ZigTypeStruct, st1.structs[0]? = some s1 ∧
        s1.resolve_status = ResolveStatus.ResolveStatusInvalid) ∧
      st1.errors.length = 1 ∧
      ∀ fuel2 : Nat,
        resolve_struct_type (fun t => if t = 0 then [1] else if t = 1 then [0] else [])
          (fuel2 + 1) st1 0 = some (false, st1) :=
  ⟨by simp [LayoutState.fresh, unstarted_struct],
    Contains.trans (v := 1) (by decide) (by decide) (Contains.direct (by decide) (by decide)),
    by decide,
    cyclic_struct_resolution (fun t => if t = 0 then [1] else if t = 1 then [0] else [])
      ⟨[unstarted_struct 10, unstarted_struct 11], []⟩ 0 3
      (by simp [LayoutState.fresh, unstarted_struct])
      (Contains.trans (v := 1) (by decide) (by decide) (Contains.direct (by decide) (by decide)))
      (by decide)⟩

/-! ## Result locations -/

/-- C13: result locations are single-assignment.  A write succeeds exactly
when the flag `written` is clear, and it then sets the flag; a write while the
flag is set is refused with the diagnostic and changes nothing; the reset
clears the flag, so that after it one write succeeds and the next one is
refused again. -/
theorem result_loc_single_assignment (loc : ResultLoc) (v w : Nat) :
    ((result_loc_write loc v).1 = WriteOutcome.stored ↔ loc.written = false) ∧
    (loc.written = false → (result_loc_write loc v).2.written = true) ∧
    (loc.written = true →
      result_loc_write loc v = (WriteOutcome.error_already_written, loc)) ∧
    (ir_reset_result loc).written = false ∧
    (result_loc_write (ir_reset_result loc) v).1 = WriteOutcome.stored ∧
    (result_loc_write (result_loc_write (ir_reset_result loc) v).2 w).1 =
      WriteOutcome.error_already_written := by
  refine ⟨?_, ?_, ?_, rfl, ?_, ?_⟩
  · unfold result_loc_write
    cases h : loc.written <;> simp
  · intro h
    simp [result_loc_write, h]
  · intro h
    simp [result_loc_write, h]
  · simp [result_loc_write, ir_reset_result]
  · simp [result_loc_write, ir_reset_result]

theorem result_loc_single_assignment_witness :
    (ResultLoc.mk ResultLocId.ResultLocIdVar false false none (some 1) none none).written =
      false ∧
    (result_loc_write
      (ResultLoc.mk ResultLocId.ResultLocIdVar false false none (some 1) none none) 7).2.written =
      true ∧
    (ResultLoc.mk ResultLocId.ResultLocIdVar true false none (some 1) (some 7) none).written =
      true ∧
    result_loc_write
      (ResultLoc.mk ResultLocId.ResultLocIdVar true false none (some 1) (some 7) none) 8 =
      (WriteOutcome.error_already_written,
        ResultLoc.mk ResultLocId.ResultLocIdVar true false none (some 1) (some 7) none) :=
  ⟨rfl,
    (result_loc_single_assignment
      (ResultLoc.mk ResultLocId.ResultLocIdVar false false none (some 1) none none) 7 8).2.1 rfl,
    rfl,
    (result_loc_single_assignment
      (ResultLoc.mk ResultLocId.ResultLocIdVar true false none (some 1) (some 7) none) 8 9).2.2.1
      rfl⟩

/-! ## Resolution of top-level declarations -/

theorem getElem?_set_resolution (st : DeclState) (t : Nat) (r : TldResolution) (u : Nat) :
    (set_resolution st t r).tlds[u]? =
      if t = u then (st.tlds[t]?).map (fun d => { d with resolution := r })
      else st.tlds[u]? := by
  unfold set_resolution
  cases h : st.tlds[t]? with
  | none =>
    by_cases e : t = u
    · subst e
      simp [h]
    · simp [e]
  | some d =>
    have hlt : t < st.tlds.length := by
      by_contra hn
      rw [List.getElem?_eq_none (by omega)] at h
      cases h
    simp only [List.getElem?_set]
    by_cases e : t = u
    · subst e
      simp [hlt]
    · simp [e]

theorem errors_set_resolution (st : DeclState) (t : Nat) (r : TldResolution) :
    (set_resolution st t r).errors = st.errors := by
  unfold set_resolution
  cases st.tlds[t]? <;> rfl

theorem DeclFrame_refl (st : DeclState) : DeclFrame st st :=
  ⟨fun _ h => h, fun _ d h => ⟨d, h, fun _ => rfl, fun hn => hn⟩⟩

theorem DeclFrame_trans {a b c : DeclState} (h1 : DeclFrame a b) (h2 : DeclFrame b c) :
    DeclFrame a c := by
  refine ⟨fun u h => h2.none_stays u (h1.none_stays u h), ?_⟩
  intro u d hd
  obtain ⟨d1, hd1, hs1, hn1⟩ := h1.some_stays u d hd
  obtain ⟨d2, hd2, hs2, hn2⟩ := h2.some_stays u d1 hd1
  refine ⟨d2, hd2, ?_, fun hn => hn2 (hn1 hn)⟩
  intro hs
  have e1 := hs1 hs
  have : d1.settled := by
    unfold Tld.settled at hs ⊢
    rw [e1]
    exact hs
  rw [hs2 this, e1]

/-- A change of state of a declaration that was not settled, to a state other
than `unresolved`, respects `DeclFrame`. -/
theorem DeclFrame_set_resolution {st : DeclState} {t : Nat} {d : Tld} {r : TldResolution}
    (ht : st.tlds[t]? = some d) (hd : ¬ d.settled)
    (hr : r ≠ .TldResolutionUnresolved) : DeclFrame st (set_resolution st t r) := by
  refine ⟨?_, ?_⟩
  · intro u hu
    rw [getElem?_set_resolution]
    by_cases e : t = u
    · subst e
      rw [ht] at hu
      cases hu
    · rw [if_neg e]
      exact hu
  · intro u du hu
    rw [getElem?_set_resolution]
    by_cases e : t = u
    · subst e
      rw [ht, Option.some.injEq] at hu
      subst hu
      exact ⟨{ d with resolution := r }, by rw [if_pos rfl, ht]; rfl,
        fun hs => absurd hs hd, fun _ => hr⟩
    · rw [if_neg e]
      exact ⟨du, hu, fun _ => rfl, fun hn => hn⟩

theorem resolve_deps_frame {resolve : DeclState → Nat → Option (Bool × DeclState)}
    (hres : FramedResolver resolve) :
    ∀ (ds : List Nat) (st : DeclState) (r : Bool) (st1 : DeclState),
      resolve_deps resolve st ds = some (r, st1) → DeclFrame st st1 := by
  intro ds
  induction ds with
  | nil =>
    intro st r st1 h
    simp only [resolve_deps, Option.some.injEq, Prod.mk.injEq] at h
    obtain ⟨_, rfl⟩ := h
    exact DeclFrame_refl _
  | cons d ds ih =>
    intro st r st1 h
    rw [resolve_deps] at h
    cases hd : resolve st d with
    | none =>
      rw [hd] at h
      cases h
    | some p =>
      obtain ⟨b, sta⟩ := p
      rw [hd] at h
      have hfr := hres st d b sta hd
      cases b with
      | false =>
        simp only [Option.some.injEq, Prod.mk.injEq] at h
        obtain ⟨_, rfl⟩ := h
        exact hfr
      | true =>
        simp only at h
        exact DeclFrame_trans hfr (ih sta r st1 h)

theorem finish_resolution_ne_unresolved (ok : Bool) {r : TldResolution}
    (h : r ≠ .TldResolutionUnresolved) : finish_resolution ok r ≠ .TldResolutionUnresolved := by
  cases r <;> cases ok <;> simp [finish_resolution] at h ⊢

theorem resolve_tld_frame (deps : Nat → List Nat) (eval_ok : Nat → Bool) (src : AstNodePtr) :
    ∀ fuel : Nat, FramedResolver (resolve_tld deps eval_ok src fuel) := by
  intro fuel
  induction fuel with
  | zero =>
    intro st t r st1 h
    simp [resolve_tld] at h
  | succ fuel ih =>
    intro st t r st1 h
    rw [resolve_tld] at h
    cases hd : st.tlds[t]? with
    | none =>
      rw [hd] at h
      simp only [Option.some.injEq, Prod.mk.injEq] at h
      obtain ⟨_, rfl⟩ := h
      exact DeclFrame_refl _
    | some d =>
      rw [hd] at h
      simp only at h
      cases hr : d.resolution with
      | TldResolutionOk =>
        rw [hr] at h
        simp only [Option.some.injEq, Prod.mk.injEq] at h
        obtain ⟨_, rfl⟩ := h
        exact DeclFrame_refl _
      | TldResolutionInvalid =>
        rw [hr] at h
        simp only [Option.some.injEq, Prod.mk.injEq] at h
        obtain ⟨_, rfl⟩ := h
        exact DeclFrame_refl _
      | TldResolutionResolving =>
        rw [hr] at h
        simp only [Option.some.injEq, Prod.mk.injEq] at h
        obtain ⟨_, rfl⟩ := h
        have hns : ¬ d.settled := by simp [Tld.settled, hr]
        have := DeclFrame_set_resolution (r := .TldResolutionInvalid) hd hns (by decide)
        exact ⟨this.none_stays, this.some_stays⟩
      | TldResolutionUnresolved =>
        rw [hr] at h
        simp only at h
        have hns : ¬ d.settled := by simp [Tld.settled, hr]
        have hfr1 := DeclFrame_set_resolution (r := .TldResolutionResolving) hd hns (by decide)
        cases hdeps : resolve_deps (resolve_tld deps eval_ok src fuel)
            (set_resolution st t .TldResolutionResolving) (deps t) with
        | none =>
          rw [hdeps] at h
          cases h
        | some p =>
          obtain ⟨ok, st2⟩ := p
          rw [hdeps] at h
          simp only at h
          have hfr2 := resolve_deps_frame ih _ _ _ _ hdeps
          have hfr12 := DeclFrame_trans hfr1 hfr2
          cases hd2 : st2.tlds[t]? with
          | none =>
            rw [hd2] at h
            simp only [Option.some.injEq, Prod.mk.injEq] at h
            obtain ⟨_, rfl⟩ := h
            exact hfr12
          | some d2 =>
            rw [hd2] at h
            simp only [Option.some.injEq, Prod.mk.injEq] at h
            obtain ⟨_, rfl⟩ := h
            -- the declaration `t` was unresolved at the start: nothing is promised for it
            refine ⟨?_, ?_⟩
            · intro u hu
              rw [getElem?_set_resolution]
              by_cases e : t = u
              · subst e
                rw [hd] at hu
                cases hu
              · rw [if_neg e]
                exact hfr12.none_stays u hu
            · intro u du hu
              rw [getElem?_set_resolution]
              by_cases e : t = u
              · subst e
                rw [hd, Option.some.injEq] at hu
                subst hu
                refine ⟨_, by rw [if_pos rfl, hd2]; rfl, fun hs => absurd hs hns, ?_⟩
                intro hne
                exact absurd hr hne
              · rw [if_neg e]
                exact hfr12.some_stays u du hu

theorem count_false_mono : ∀ (l l1 : List Bool), l1.length = l.length →
    (∀ i : Nat, l[i]? = some true → l1[i]? = some true) → l1.count false ≤ l.count false := by
  intro l
  induction l with
  | nil =>
    intro l1 hlen _
    have : l1 = [] := List.length_eq_zero.1 (by simpa using hlen)
    subst this
    exact Nat.le_refl _
  | cons x l ih =>
    intro l1 hlen h
    cases l1 with
    | nil => simp
    | cons y l1 =>
      have hrec := ih l1 (by simpa using hlen) (fun i hi => by simpa using h (i + 1) (by simpa using hi))
      have h0 := h 0
      simp only [List.getElem?_cons_zero, Option.some.injEq] at h0
      simp only [List.count_cons]
      cases x <;> cases y <;> simp at h0 ⊢ <;> omega

theorem DeclFrame_length {a b : DeclState} (h : DeclFrame a b) :
    b.tlds.length = a.tlds.length := by
  apply Nat.le_antisymm
  · by_contra hn
    have h1 := h.none_stays a.tlds.length (List.getElem?_eq_none (Nat.le_refl _))
    rw [List.getElem?_eq_none_iff] at h1
    omega
  · by_contra hn
    have hlt : b.tlds.length < a.tlds.length := by omega
    obtain ⟨d1, hd1, _⟩ := h.some_stays b.tlds.length _ (List.getElem?_eq_getElem hlt)
    rw [List.getElem?_eq_none (Nat.le_refl _)] at hd1
    cases hd1

theorem DeclFrame_count {a b : DeclState} (h : DeclFrame a b) :
    (started_list b).count false ≤ (started_list a).count false := by
  apply count_false_mono
  · simp only [started_list, List.length_map]
    exact DeclFrame_length h
  · intro i hi
    simp only [started_list, List.getElem?_map] at hi ⊢
    cases hd : a.tlds[i]? with
    | none =>
      rw [hd] at hi
      cases hi
    | some d =>
      rw [hd] at hi
      obtain ⟨d1, hd1, _, hn⟩ := h.some_stays i d hd
      rw [hd1]
      simp only [Option.map_some', Option.some.injEq, decide_eq_true_eq] at hi ⊢
      exact hn hi

theorem resolve_deps_total {resolve : DeclState → Nat → Option (Bool × DeclState)} {k : Nat}
    (hfr : FramedResolver resolve)
    (htot : ∀ (st : DeclState) (t : Nat), (started_list st).count false < k →
      ∃ r st1, resolve st t = some (r, st1)) :
    ∀ (ds : List Nat) (st : DeclState), (started_list st).count false < k →
      ∃ r st1, resolve_deps resolve st ds = some (r, st1) := by
  intro ds
  induction ds with
  | nil => intro st _; exact ⟨true, st, rfl⟩
  | cons d ds ih =>
    intro st h
    obtain ⟨b, sta, hd⟩ := htot st d h
    rw [resolve_deps, hd]
    cases b with
    | false => exact ⟨false, sta, rfl⟩
    | true =>
      have hc := DeclFrame_count (hfr st d true sta hd)
      exact ih sta (by omega)

/-- A depth of one more than the number of unresolved declarations is enough
for the resolver to return. -/
theorem resolve_tld_total (deps : Nat → List Nat) (eval_ok : Nat → Bool) (src : AstNodePtr) :
    ∀ (fuel : Nat) (st : DeclState) (t : Nat), (started_list st).count false < fuel →
      ∃ r st1, resolve_tld deps eval_ok src fuel st t = some (r, st1) := by
  intro fuel
  induction fuel with
  | zero => intro st t h; omega
  | succ fuel ih =>
    intro st t h
    rw [resolve_tld]
    cases hd : st.tlds[t]? with
    | none => exact ⟨_, _, rfl⟩
    | some d =>
      simp only
      cases hr : d.resolution with
      | TldResolutionOk => exact ⟨_, _, rfl⟩
      | TldResolutionInvalid => exact ⟨_, _, rfl⟩
      | TldResolutionResolving => exact ⟨_, _, rfl⟩
      | TldResolutionUnresolved =>
        simp only
        have hcount : (started_list (set_resolution st t .TldResolutionResolving)).count false + 1 =
            (started_list st).count false := by
          have : started_list (set_resolution st t .TldResolutionResolving) =
              (started_list st).set t true := by
            simp [started_list, set_resolution, hd]
          rw [this]
          apply count_false_set_true
          simp [started_list, hd, hr]
        obtain ⟨ok, st2, hdeps⟩ := resolve_deps_total (resolve_tld_frame deps eval_ok src fuel) ih
          (deps t) (set_resolution st t .TldResolutionResolving) (by omega)
        rw [hdeps]
        simp only
        cases st2.tlds[t]? <;> exact ⟨_, _, rfl⟩

/-- C14: declaration resolution detects cycles by state.  A call of the
resolver on a declaration whose state is `resolving` returns at once, for
every depth bound of at least one and whatever the declaration depends on: it
fails, appends one dependency-loop diagnostic bound to the source node of the
request, and leaves the declaration `invalid`.  A declaration whose state is
`ok` or `invalid` has the same state after any call of the resolver that
returns, and a call returns as soon as its depth bound exceeds the number of
declarations. -/
theorem tld_resolution_cycle_and_one_way (deps : Nat → List Nat) (eval_ok : Nat → Bool)
    (src : AstNodePtr) (st : DeclState) (t : Nat) (d : Tld) (ht : st.tlds[t]? = some d) :
    (d.resolution = TldResolution.TldResolutionResolving →
      ∀ fuel : Nat,
        resolve_tld deps eval_ok src (fuel + 1) st t =
          some (false,
            { set_resolution st t TldResolution.TldResolutionInvalid with
              errors := st.errors ++ [(t, src)] }) ∧
        (set_resolution st t TldResolution.TldResolutionInvalid).tlds[t]? =
          some { d with resolution := TldResolution.TldResolutionInvalid }) ∧
    (d.settled →
      ∀ (fuel u : Nat) (r : Bool) (st1 : DeclState),
        resolve_tld deps eval_ok src fuel st u = some (r, st1) →
        ∃ d1 : Tld, st1.tlds[t]? = some d1 ∧ d1.resolution = d.resolution) ∧
    (∀ (fuel u : Nat), st.tlds.length < fuel →
      ∃ r st1, resolve_tld deps eval_ok src fuel st u = some (r, st1)) := by
  refine ⟨?_, ?_, ?_⟩
  · intro hr fuel
    refine ⟨?_, ?_⟩
    · rw [resolve_tld, ht]
      simp only [hr]
    · rw [getElem?_set_resolution, if_pos rfl, ht]
      rfl
  · intro hs fuel u r st1 h
    obtain ⟨d1, hd1, hkeep, _⟩ := (resolve_tld_frame deps eval_ok src fuel st u r st1 h).some_stays
      t d ht
    exact ⟨d1, hd1, hkeep hs⟩
  · intro fuel u hf
    apply resolve_tld_total
    have h1 : (started_list st).count false ≤ (started_list st).length := List.count_le_length _ _
    simp only [started_list, List.length_map] at h1
    simp only [started_list]
    omega

theorem tld_resolution_cycle_and_one_way_witness :
    (DeclState.mk [⟨TldId.TldIdVar, 10, TldResolution.TldResolutionResolving⟩,
        ⟨TldId.TldIdVar, 11, TldResolution.TldResolutionOk⟩] []).tlds[0]? =
      some ⟨TldId.TldIdVar, 10, TldResolution.TldResolutionResolving⟩ ∧
    resolve_tld (fun _ => [1]) (fun _ => true) 5 1
        ⟨[⟨TldId.TldIdVar, 10, TldResolution.TldResolutionResolving⟩,
          ⟨TldId.TldIdVar, 11, TldResolution.TldResolutionOk⟩], []⟩ 0 =
      some (false, ⟨[⟨TldId.TldIdVar, 10, TldResolution.TldResolutionInvalid⟩,
          ⟨TldId.TldIdVar, 11, TldResolution.TldResolutionOk⟩], [(0, 5)]⟩) ∧
    Tld.settled ⟨TldId.TldIdVar, 11, TldResolution.TldResolutionOk⟩ ∧
    (∃ d1 : Tld,
      (DeclState.mk [⟨TldId.TldIdVar, 10, TldResolution.TldResolutionInvalid⟩,
        ⟨TldId.TldIdVar, 11, TldResolution.TldResolutionOk⟩] [(0, 5)]).tlds[1]? = some d1 ∧
      d1.resolution = TldResolution.TldResolutionOk) ∧
    (2 : Nat) < 3 ∧
    ∃ r st1, resolve_tld (fun _ => [1]) (fun _ => true) 5 3
        ⟨[⟨TldId.TldIdVar, 10, TldResolution.TldResolutionResolving⟩,
          ⟨TldId.TldIdVar, 11, TldResolution.TldResolutionOk⟩], []⟩ 1 = some (r, st1) :=
  ⟨rfl,
    ((tld_resolution_cycle_and_one_way (fun _ => [1]) (fun _ => true) 5
      ⟨[⟨TldId.TldIdVar, 10, TldResolution.TldResolutionResolving⟩,
        ⟨TldId.TldIdVar, 11, TldResolution.TldResolutionOk⟩], []⟩ 0
      ⟨TldId.TldIdVar, 10, TldResolution.TldResolutionResolving⟩ rfl).1 rfl 0).1,
    by decide,
    (tld_resolution_cycle_and_one_way (fun _ => [1]) (fun _ => true) 5
      ⟨[⟨TldId.TldIdVar, 10, TldResolution.TldResolutionResolving⟩,
        ⟨TldId.TldIdVar, 11, TldResolution.TldResolutionOk⟩], []⟩ 1
      ⟨TldId.TldIdVar, 11, TldResolution.TldResolutionOk⟩ rfl).2.1 (by decide) 1 0 false
      ⟨[⟨TldId.TldIdVar, 10, TldResolution.TldResolutionInvalid⟩,
        ⟨TldId.TldIdVar, 11, TldResolution.TldResolutionOk⟩], [(0, 5)]⟩ (by decide),
    by decide,
    (tld_resolution_cycle_and_one_way (fun _ => [1]) (fun _ => true) 5
      ⟨[⟨TldId.TldIdVar, 10, TldResolution.TldResolutionResolving⟩,
        ⟨TldId.TldIdVar, 11, TldResolution.TldResolutionOk⟩], []⟩ 0
      ⟨TldId.TldIdVar, 10, TldResolution.TldResolutionResolving⟩ rfl).2.2 3 1 (by decide)⟩

/-! ## The branch quota -/

/-- The evaluation from pass `i` with the counter at `c`: with enough fuel it
is aborted after `q - c + 1` further passes when the condition holds that
long, and it finishes at the first pass whose condition fails otherwise. -/
theorem eval_loop_from_spec (cond : Nat → Bool) (q : Nat) :
    ∀ (fuel i c : Nat), c ≤ q → q - c + 2 ≤ fuel →
      ((∀ j, j ≤ q - c → cond (i + j) = true) →
        eval_loop_from cond fuel i ⟨c, q⟩ = LoopOutcome.quota_exceeded (i + (q - c) + 1) q) ∧
      (∀ n, n ≤ q - c → cond (i + n) = false → (∀ j, j < n → cond (i + j) = true) →
        eval_loop_from cond fuel i ⟨c, q⟩ = LoopOutcome.finished (i + n)) := by
  intro fuel
  induction fuel with
  | zero => intro i c _ hf; omega
  | succ fuel ih =>
    intro i c hc hf
    rw [eval_loop_from]
    cases hci : cond i with
    | false =>
      simp only [Bool.false_eq_true, if_false]
      refine ⟨fun h => ?_, fun n hn hfalse hbefore => ?_⟩
      · have := h 0 (Nat.zero_le _)
        rw [Nat.add_zero, hci] at this
        cases this
      · cases n with
        | zero => rfl
        | succ n =>
          have := hbefore 0 (Nat.succ_pos _)
          rw [Nat.add_zero, hci] at this
          cases this
    | true =>
      simp only [if_true]
      by_cases hq : c = q
      · subst hq
        have : ir_emit_backward_branch ⟨c, c⟩ = none := by simp [ir_emit_backward_branch]
        rw [this]
        refine ⟨fun _ => by simp, fun n hn hfalse _ => ?_⟩
        have hn0 : n = 0 := by omega
        subst hn0
        rw [Nat.add_zero, hci] at hfalse
        cases hfalse
      · have hlt : c < q := by omega
        have : ir_emit_backward_branch ⟨c, q⟩ = some ⟨c + 1, q⟩ := by
          simp [ir_emit_backward_branch]
          omega
        rw [this]
        obtain ⟨h1, h2⟩ := ih (i + 1) (c + 1) (by omega) (by omega)
        refine ⟨fun h => ?_, fun n hn hfalse hbefore => ?_⟩
        · have := h1 (fun j hj => by
            have := h (j + 1) (by omega)
            rwa [show i + (j + 1) = i + 1 + j by omega] at this)
          simp only [this]
          congr 1
          omega
        · cases n with
          | zero =>
            rw [Nat.add_zero, hci] at hfalse
            cases hfalse
          | succ n =>
            have := h2 n (by omega)
              (by rwa [show i + (n + 1) = i + 1 + n by omega] at hfalse)
              (fun j hj => by
                have := hbefore (j + 1) (by omega)
                rwa [show i + (j + 1) = i + 1 + j by omega] at this)
            simp only [this]
            congr 1
            omega

theorem eval_loop_exceeded {q : Nat} {cond : Nat → Bool} (h : takes_more_than cond q) :
    eval_loop q cond = LoopOutcome.quota_exceeded (q + 1) q := by
  have := (eval_loop_from_spec cond q (q + 2) 0 0 (Nat.zero_le _) (by omega)).1
    (fun j hj => by rw [Nat.zero_add]; exact h j (by omega))
  simpa [eval_loop] using this

theorem eval_loop_finished {q : Nat} {cond : Nat → Bool} (h : ¬ takes_more_than cond q) :
    ∃ n, n ≤ q ∧ cond n = false ∧ eval_loop q cond = LoopOutcome.finished n := by
  have hex : ∃ n, n ≤ q ∧ cond n = false := by
    unfold takes_more_than at h
    by_contra hn
    apply h
    intro i hi
    cases hc : cond i
    · exact absurd ⟨i, hi, hc⟩ hn
    · rfl
  have hspec := Nat.find_spec hex
  have hmin := fun j (hj : j < Nat.find hex) => Nat.find_min hex hj
  refine ⟨Nat.find hex, hspec.1, hspec.2, ?_⟩
  have := (eval_loop_from_spec cond q (q + 2) 0 0 (Nat.zero_le _) (by omega)).2
    (Nat.find hex) (by omega) (by rw [Nat.zero_add]; exact hspec.2)
    (fun j hj => by
      rw [Nat.zero_add]
      have h1 := hmin j hj
      cases hc : cond j
      · exact absurd ⟨by omega, hc⟩ h1
      · rfl)
  simpa [eval_loop] using this

/-- C15: the branch quota is enforced exactly.  For every quota `q` and every
loop, the evaluation returns; it is aborted with the diagnostic that names `q`
exactly when the loop takes more than `q` backward branches, and then after
`q + 1` passes of the body; otherwise it finishes within `q` passes.  A loop
that also exceeds the quota `q + 1` is aborted there after exactly one more
pass.  The outcome depends on nothing but the quota and the loop. -/
theorem branch_quota_exact (q : Nat) (cond : Nat → Bool) :
    eval_loop q cond ≠ LoopOutcome.out_of_fuel ∧
    ((∃ n k, eval_loop q cond = LoopOutcome.quota_exceeded n k) ↔ takes_more_than cond q) ∧
    (takes_more_than cond q → eval_loop q cond = LoopOutcome.quota_exceeded (q + 1) q) ∧
    (¬ takes_more_than cond q → ∃ n, n ≤ q ∧ eval_loop q cond = LoopOutcome.finished n) ∧
    (takes_more_than cond (q + 1) →
      eval_loop q cond = LoopOutcome.quota_exceeded (q + 1) q ∧
      eval_loop (q + 1) cond = LoopOutcome.quota_exceeded (q + 1 + 1) (q + 1)) ∧
    (∀ cond1 : Nat → Bool, (∀ i, cond1 i = cond i) → eval_loop q cond1 = eval_loop q cond) := by
  refine ⟨?_, ?_, fun h => eval_loop_exceeded h, ?_, ?_, ?_⟩
  · by_cases h : takes_more_than cond q
    · rw [eval_loop_exceeded h]
      simp
    · obtain ⟨n, _, _, hn⟩ := eval_loop_finished h
      rw [hn]
      simp
  · constructor
    · rintro ⟨n, k, hn⟩
      by_contra h
      obtain ⟨m, _, _, hm⟩ := eval_loop_finished h
      rw [hm] at hn
      cases hn
    · intro h
      exact ⟨q + 1, q, eval_loop_exceeded h⟩
  · intro h
    obtain ⟨n, hn, _, he⟩ := eval_loop_finished h
    exact ⟨n, hn, he⟩
  · intro h
    exact ⟨eval_loop_exceeded (fun i hi => h i (by omega)), eval_loop_exceeded h⟩
  · intro cond1 h
    have : cond1 = cond := funext h
    rw [this]

theorem branch_quota_exact_witness :
    takes_more_than (fun i => decide (i < 5)) 3 ∧
    eval_loop 3 (fun i => decide (i < 5)) = LoopOutcome.quota_exceeded 4 3 ∧
    ¬ takes_more_than (fun i => decide (i < 2)) 3 ∧
    (∃ n, n ≤ 3 ∧ eval_loop 3 (fun i => decide (i < 2)) = LoopOutcome.finished n) ∧
    takes_more_than (fun i => decide (i < 5)) (3 + 1) ∧
    eval_loop (3 + 1) (fun i => decide (i < 5)) = LoopOutcome.quota_exceeded 5 4 :=
  ⟨by unfold takes_more_than; decide,
    (branch_quota_exact 3 (fun i => decide (i < 5))).2.2.1 (by unfold takes_more_than; decide),
    by unfold takes_more_than; decide,
    (branch_quota_exact 3 (fun i => decide (i < 2))).2.2.2.1 (by unfold takes_more_than; decide),
    by unfold takes_more_than; decide,
    ((branch_quota_exact 3 (fun i => decide (i < 5))).2.2.2.2.1
      (by unfold takes_more_than; decide)).2⟩

/-! ## Peer result locations -/

theorem resolve_peer_types_pair (conv : ZigTypePtr → ZigTypePtr → Bool) (a b : ZigTypePtr)
    (h : conv a b = true) : resolve_peer_types conv [a, b] = some b := by
  by_cases e : a = b
  · simp [resolve_peer_types, widen_peer_type, e]
  · simp [resolve_peer_types, widen_peer_type, e, h]

/-- C16: peer result locations unify to one type and one slot.  For an `if`
used as a value whose `then` branch has type `a` and whose `else` branch has
type `b`, with `a` implicitly convertible to `b`: the first branch to report
is deferred and no slot is made; when the other branch has reported, in
either order, the peer parent's resolved type is `b`, exactly one storage slot
has been materialised, and the resolved locations of the parent and of both
peers are that slot. -/
theorem peer_unification (conv : ZigTypePtr → ZigTypePtr → Bool) (a b : ZigTypePtr)
    (slots : Nat) (h : conv a b = true) :
    (resolve_peer conv (new_if_peers slots) 0 a).1 = PeerOutcome.deferred ∧
    (resolve_peer conv (new_if_peers slots) 0 a).2.slots = slots ∧
    resolve_peer conv (resolve_peer conv (new_if_peers slots) 0 a).2 1 b =
      (PeerOutcome.resolved, unified_if_peers slots a b b) ∧
    (resolve_peer conv (new_if_peers slots) 1 b).1 = PeerOutcome.deferred ∧
    (resolve_peer conv (new_if_peers slots) 1 b).2.slots = slots ∧
    resolve_peer conv (resolve_peer conv (new_if_peers slots) 1 b).2 0 a =
      (PeerOutcome.resolved, unified_if_peers slots a b b) ∧
    (unified_if_peers slots a b b).parent.resolved_type = some b ∧
    (unified_if_peers slots a b b).slots = slots + 1 ∧
    (unified_if_peers slots a b b).parent.base.resolved_loc = some slots ∧
    (unified_if_peers slots a b b).parent.peers.map (fun p => p.base.resolved_loc) =
      [some slots, some slots] := by
  have hp := resolve_peer_types_pair conv a b h
  refine ⟨?_, ?_, ?_, ?_, ?_, ?_, rfl, rfl, rfl, rfl⟩
  · simp [resolve_peer, new_if_peers, peer_candidates, set_candidate, new_result_loc]
  · simp [resolve_peer, new_if_peers, peer_candidates, set_candidate, new_result_loc]
  · simp [resolve_peer, new_if_peers, peer_candidates, set_candidate, new_result_loc, hp,
      unified_if_peers, set_resolved_loc]
  · simp [resolve_peer, new_if_peers, peer_candidates, set_candidate, new_result_loc]
  · simp [resolve_peer, new_if_peers, peer_candidates, set_candidate, new_result_loc]
  · simp [resolve_peer, new_if_peers, peer_candidates, set_candidate, new_result_loc, hp,
      unified_if_peers, set_resolved_loc]

theorem peer_unification_witness :
    (fun x y : ZigTypePtr => decide (x ≤ y)) 8 16 = true ∧
    resolve_peer (fun x y => decide (x ≤ y))
        (resolve_peer (fun x y => decide (x ≤ y)) (new_if_peers 3) 0 8).2 1 16 =
      (PeerOutcome.resolved, unified_if_peers 3 8 16 16) :=
  ⟨by decide, (peer_unification (fun x y => decide (x ≤ y)) 8 16 3 (by decide)).2.2.1⟩

/-! ## Dead branches -/

theorem analyze_insts_succs (insts : List IrInstSrc) :
    ∀ c ∈ (analyze_insts insts).succs,
      ∃ i, first_control insts = some i ∧ c ∈ selected_targets i := by
  induction insts with
  | nil => intro c hc; simp [analyze_insts] at hc
  | cons x rest ih =>
    intro c hc
    cases x with
    | other id => exact ih c (by simpa [analyze_insts] using hc)
    | compile_err msg => simp [analyze_insts] at hc
    | cond_br cond t e =>
      rcases cond with _ | _ | _ <;>
        exact ⟨_, rfl, by simpa [analyze_insts, selected_targets] using hc⟩
    | br d => exact ⟨_, rfl, by simpa [analyze_insts, selected_targets] using hc⟩
    | ret => simp [analyze_insts] at hc

theorem analyze_insts_errors (insts : List IrInstSrc) :
    ∀ m ∈ (analyze_insts insts).errors,
      first_control insts = some (IrInstSrc.compile_err m) := by
  induction insts with
  | nil => intro m hm; simp [analyze_insts] at hm
  | cons x rest ih =>
    intro m hm
    cases x with
    | other id => exact ih m (by simpa [analyze_insts] using hm)
    | compile_err msg =>
      simp only [analyze_insts, List.mem_singleton] at hm
      subst hm
      rfl
    | cond_br cond t e => rcases cond with _ | _ | _ <;> simp [analyze_insts] at hm
    | br d => simp [analyze_insts] at hm
    | ret => simp [analyze_insts] at hm

theorem analyze_insts_succs_length (insts : List IrInstSrc) :
    (analyze_insts insts).succs.length ≤ 2 := by
  induction insts with
  | nil => simp [analyze_insts]
  | cons x rest ih =>
    cases x with
    | other id => simpa [analyze_insts] using ih
    | compile_err msg => simp [analyze_insts]
    | cond_br cond t e => rcases cond with _ | _ | _ <;> simp [analyze_insts]
    | br d => simp [analyze_insts]
    | ret => simp [analyze_insts]

/-- A block that ends in a branch on a folded condition is generated with an
unconditional branch to the selected block as its last instruction. -/
theorem analyze_insts_folded (insts : List IrInstSrc) (c : Bool) (t e : Nat)
    (h : first_control insts = some (IrInstSrc.cond_br (some c) t e)) :
    ∃ pre, (analyze_insts insts).gen = pre ++ [IrInstGen.br (if c then t else e)] ∧
      (analyze_insts insts).succs = [if c then t else e] := by
  induction insts with
  | nil => simp [first_control] at h
  | cons x rest ih =>
    cases x with
    | other id =>
      obtain ⟨pre, hpre, hs⟩ := ih (by simpa [first_control] using h)
      exact ⟨IrInstGen.other id :: pre, by simp [analyze_insts, hpre], by simp [analyze_insts, hs]⟩
    | compile_err msg => simp [first_control] at h
    | cond_br cond t1 e1 =>
      simp only [first_control, Option.some.injEq, IrInstSrc.cond_br.injEq] at h
      obtain ⟨rfl, rfl, rfl⟩ := h
      cases c
      · exact ⟨[], by simp [analyze_insts], by simp [analyze_insts]⟩
      · exact ⟨[], by simp [analyze_insts], by simp [analyze_insts]⟩
    | br d => simp [first_control] at h
    | ret => simp [first_control] at h

theorem analyze_blocks_inv (prog : List (List IrInstSrc)) :
    ∀ (fuel : Nat) (wl : List Nat) (st st1 : AnalysisState),
      AInv prog wl st → analyze_blocks prog fuel wl st = some st1 → AInv prog [] st1 := by
  intro fuel
  induction fuel with
  | zero =>
    intro wl st st1 hinv h
    cases wl with
    | nil =>
      simp only [analyze_blocks, Option.some.injEq] at h
      subst h
      exact hinv
    | cons b rest => simp [analyze_blocks] at h
  | succ fuel ih =>
    intro wl st st1 hinv h
    cases wl with
    | nil =>
      simp only [analyze_blocks, Option.some.injEq] at h
      subst h
      exact hinv
    | cons b rest =>
      rw [analyze_blocks] at h
      have hrest : AInv prog rest st :=
        ⟨fun x hx => hinv.wl_live x (List.mem_cons_of_mem _ hx), hinv.gen_live, hinv.err_live⟩
      have hb : Live prog b := hinv.wl_live b (List.mem_cons_self _ _)
      split at h
      · rename_i insts hv hp
        refine ih _ _ _ ⟨?_, ?_, ?_⟩ h
        · intro x hx
          rcases List.mem_append.1 hx with hx | hx
          · obtain ⟨i, hi, hxi⟩ := analyze_insts_succs insts x hx
            exact Live.step hb hp hi hxi
          · exact hinv.wl_live x (List.mem_cons_of_mem _ hx)
        · intro p hp1
          rcases List.mem_append.1 hp1 with hp1 | hp1
          · exact hinv.gen_live p hp1
          · simp only [List.mem_singleton] at hp1
            subst hp1
            exact ⟨hb, insts, hp, rfl⟩
        · intro m hm
          rcases List.mem_append.1 hm with hm | hm
          · exact hinv.err_live m hm
          · exact ⟨b, insts, hb, hp, analyze_insts_errors insts m hm⟩
      · exact ih _ _ _ hrest h

/-- Enough steps: three for each block not yet analysed and one for each
block waiting. -/
theorem analyze_blocks_total (prog : List (List IrInstSrc)) :
    ∀ (fuel : Nat) (wl : List Nat) (st : AnalysisState),
      3 * st.visited.count false + wl.length < fuel →
      ∃ st1, analyze_blocks prog fuel wl st = some st1 := by
  intro fuel
  induction fuel with
  | zero => intro wl st h; omega
  | succ fuel ih =>
    intro wl st h
    cases wl with
    | nil => exact ⟨st, by simp [analyze_blocks]⟩
    | cons b rest =>
      rw [analyze_blocks]
      simp only [List.length_cons] at h
      split
      · rename_i insts hv hp
        apply ih
        have h1 := count_false_set_true st.visited b hv
        have h2 := analyze_insts_succs_length insts
        simp only [List.length_append]
        omega
      · exact ih _ _ (by omega)

/-- C17: dead branches are never analysed.  The analysis of every function
returns.  Every block of the generated graph, and every block a compile error
comes from, is reachable from the entry through selected sides only, so that
a block reachable only through the unselected side of a folded condition is
neither analysed nor generated; a block that ends in a branch on a condition
folded to `c` is generated with an unconditional branch to the selected block
as its last instruction, and makes only that block reachable; and
`if (false) { @compileError("x") }` analyses with no error. -/
theorem dead_branches_not_analysed (prog : List (List IrInstSrc)) :
    (∃ st : AnalysisState, ir_analyze prog = some st ∧
      (∀ p ∈ st.gen_blocks, Live prog p.1) ∧
      (∀ m ∈ st.errors, ∃ b insts, Live prog b ∧ prog[b]? = some insts ∧
        first_control insts = some (IrInstSrc.compile_err m)) ∧
      (∀ p ∈ st.gen_blocks, ∀ (insts : List IrInstSrc) (c : Bool) (t e : Nat),
        prog[p.1]? = some insts →
        first_control insts = some (IrInstSrc.cond_br (some c) t e) →
        ∃ pre, p.2 = pre ++ [IrInstGen.br (if c then t else e)])) ∧
    (∀ (insts : List IrInstSrc) (c : Bool) (t e : Nat),
      first_control insts = some (IrInstSrc.cond_br (some c) t e) →
      (analyze_insts insts).succs = [if c then t else e]) ∧
    ir_analyze if_false_compile_error =
      some ⟨[true, false, true], [(0, [IrInstGen.br 2]), (2, [IrInstGen.ret])], []⟩ := by
  refine ⟨?_, fun insts c t e h => ?_, by decide⟩
  swap
  · obtain ⟨_, _, hs⟩ := analyze_insts_folded insts c t e h
    exact hs
  obtain ⟨st, hst⟩ := analyze_blocks_total prog (3 * prog.length + 2) [0]
    ⟨List.replicate prog.length false, [], []⟩ (by
      have := List.count_le_length false (List.replicate prog.length false)
      simp only [List.length_replicate] at this
      simp only [List.length_singleton]
      omega)
  have hinv : AInv prog [] st := by
    refine analyze_blocks_inv prog _ _ _ _ ⟨?_, ?_, ?_⟩ hst
    · intro b hb
      simp only [List.mem_singleton] at hb
      subst hb
      exact Live.entry
    · intro p hp
      cases hp
    · intro m hm
      cases hm
  refine ⟨st, hst, fun p hp => (hinv.gen_live p hp).1, hinv.err_live, ?_⟩
  intro p hp insts c t e hprog hfc
  obtain ⟨_, insts1, hprog1, hgen⟩ := hinv.gen_live p hp
  rw [hprog, Option.some.injEq] at hprog1
  subst hprog1
  obtain ⟨pre, hpre, _⟩ := analyze_insts_folded insts c t e hfc
  exact ⟨pre, by rw [hgen, hpre]⟩

theorem dead_branches_not_analysed_witness :
    first_control [IrInstSrc.other 1, IrInstSrc.cond_br (some false) 1 2] =
      some (IrInstSrc.cond_br (some false) 1 2) ∧
    (analyze_insts [IrInstSrc.other 1, IrInstSrc.cond_br (some false) 1 2]).succs = [2] :=
  ⟨rfl,
    (dead_branches_not_analysed if_false_compile_error).2.1
      [IrInstSrc.other 1, IrInstSrc.cond_br (some false) 1 2] false 1 2 rfl⟩

/-! ## The enums of resolution -/

/-- C18: the resolution statuses form an increasing ladder under the numeric
order of `ResolveStatus`: `Unstarted < ZeroBitsKnown < AlignmentKnown <
SizeKnown < LLVMFwdDecl < LLVMFull`; for every status `s` and every rung `r`,
`s >= r` holds exactly when every fact known at `r` is known at `s`; and
`ResolveStatusInvalid` is not `>=` any rung at which something is known. -/
theorem resolve_status_ladder :
    (ResolveStatus.ResolveStatusUnstarted.toNat < ResolveStatus.ResolveStatusZeroBitsKnown.toNat ∧
      ResolveStatus.ResolveStatusZeroBitsKnown.toNat <
        ResolveStatus.ResolveStatusAlignmentKnown.toNat ∧
      ResolveStatus.ResolveStatusAlignmentKnown.toNat <
        ResolveStatus.ResolveStatusSizeKnown.toNat ∧
      ResolveStatus.ResolveStatusSizeKnown.toNat < ResolveStatus.ResolveStatusLLVMFwdDecl.toNat ∧
      ResolveStatus.ResolveStatusLLVMFwdDecl.toNat < ResolveStatus.ResolveStatusLLVMFull.toNat) ∧
    (∀ s r : ResolveStatus, r.is_rung →
      (r.toNat ≤ s.toNat ↔ ∀ f : LayoutFact, r.knows f = true → s.knows f = true)) ∧
    (∀ r ∈ known_rungs, ¬ r.toNat ≤ ResolveStatus.ResolveStatusInvalid.toNat) := by
  refine ⟨by decide, ?_, by decide⟩
  intro s r hr
  constructor
  · intro h f
    cases s <;> cases r <;> cases f <;> simp [ResolveStatus.toNat, ResolveStatus.knows] at h ⊢
  · intro h
    cases s <;> cases r <;>
      first
      | (simp [ResolveStatus.toNat]; done)
      | exact absurd rfl hr
      | (have h1 := h LayoutFact.zero_bits
         have h2 := h LayoutFact.alignment
         have h3 := h LayoutFact.size
         have h4 := h LayoutFact.llvm_fwd_decl
         have h5 := h LayoutFact.llvm_full
         simp [ResolveStatus.knows] at h1 h2 h3 h4 h5)

theorem resolve_status_ladder_witness :
    ResolveStatus.ResolveStatusSizeKnown.is_rung ∧
    (ResolveStatus.ResolveStatusSizeKnown.toNat ≤ ResolveStatus.ResolveStatusInvalid.toNat ↔
      ∀ f : LayoutFact, ResolveStatus.ResolveStatusSizeKnown.knows f = true →
        ResolveStatus.ResolveStatusInvalid.knows f = true) ∧
    ResolveStatus.ResolveStatusSizeKnown ∈ known_rungs ∧
    ¬ ResolveStatus.ResolveStatusSizeKnown.toNat ≤ ResolveStatus.ResolveStatusInvalid.toNat :=
  ⟨by decide,
    resolve_status_ladder.2.1 ResolveStatus.ResolveStatusInvalid
      ResolveStatus.ResolveStatusSizeKnown (by decide),
    by decide,
    resolve_status_ladder.2.2 ResolveStatus.ResolveStatusSizeKnown (by decide)⟩

/-- C19: the resolution state of a top-level declaration takes exactly one of
the four values `unresolved`, `resolving`, `invalid`, `ok`: every state is one
of them, the four are distinct, and their values are `0 .. 3`; the state with
value `0`, the one of a zero-initialised declaration, is `unresolved`. -/
theorem tld_resolution_values :
    (∀ r : TldResolution,
      r = TldResolution.TldResolutionUnresolved ∨ r = TldResolution.TldResolutionResolving ∨
      r = TldResolution.TldResolutionInvalid ∨ r = TldResolution.TldResolutionOk) ∧
    [TldResolution.TldResolutionUnresolved, TldResolution.TldResolutionResolving,
      TldResolution.TldResolutionInvalid, TldResolution.TldResolutionOk].Nodup ∧
    (∀ r : TldResolution, TldResolution.of_value r.toNat = some r) ∧
    (∀ n : Nat, (∃ r, TldResolution.of_value n = some r) ↔ n < 4) ∧
    TldResolution.of_value 0 = some TldResolution.TldResolutionUnresolved ∧
    zero_initialised_tld.resolution = TldResolution.TldResolutionUnresolved := by
  refine ⟨?_, by decide, ?_, ?_, rfl, rfl⟩
  · intro r
    cases r <;> simp
  · intro r
    cases r <;> rfl
  · intro n
    constructor
    · rintro ⟨r, hr⟩
      match n, hr with
      | 0, _ => omega
      | 1, _ => omega
      | 2, _ => omega
      | 3, _ => omega
      | n + 4, hr => simp [TldResolution.of_value] at hr
    · intro hn
      match n, hn with
      | 0, _ => exact ⟨_, rfl⟩
      | 1, _ => exact ⟨_, rfl⟩
      | 2, _ => exact ⟨_, rfl⟩
      | 3, _ => exact ⟨_, rfl⟩

end Zig
